import Mathlib

/-!
Verification of the zet note engine (indexing and search subsystem).

The development shallowly embeds the Go sources:

* `splitZettel` (internal/storage/storage.go, lines 447-496): the note
  parser.  Lines are produced exactly as by `bufio.Scanner` with
  `ScanLines` (split at `'\n'`, one trailing `'\r'` dropped per line, no
  final empty token when the input ends with a newline).  The link
  regular expression `\[(.+)\]\(\.\./(.*?)/?\) (.+)` and the tag regular
  expression `^\t\t#[^\s]+` are embedded as executable predicates over
  `List Char`; a proof of their faithfulness to the regex semantics is
  in the doc comments of `isLinkLine` and `isTagLine`.

* The synchronizer (`UpdateDB`/`processZettels`/`processFiles`/
  `addZettel`/`insertFile`/`updateFile`/`insertTags`/`deleteFiles`/
  `deleteDirs` of internal/storage/storage.go) as a state machine over
  an explicit catalog value and an explicit file-system value.

* The FTS trigger schema of internal/storage/sql.go.

* `Add`/`file` of add.go.

Machine integers do not occur on the embedded paths; Go `time.Time`
values are embedded as (seconds, nanoseconds) pairs and RFC3339 strings
by their whole-second value (`time.Format(time.RFC3339)` drops the
sub-second part and `time.Parse` restores exactly the whole seconds).
-/

namespace Zet

/-- Go regexp character class `\s` = `[\t\n\f\r ]`. -/
def goSpace (c : Char) : Bool :=
  c = ' ' || c = '\t' || c = '\n' || c = '\x0c' || c = '\r'

/-- `dropCR` from bufio.ScanLines: remove one trailing carriage return. -/
def dropCR (l : List Char) : List Char :=
  if l.getLast? = some '\r' then l.dropLast else l

/-- Accumulating tokenizer for bufio.Scanner with ScanLines: `acc` holds
the reversed characters of the current (unfinished) line. -/
def goLinesAux : List Char → List Char → List (List Char)
  | [], [] => []
  | [], acc => [dropCR acc.reverse]
  | c :: cs, acc =>
    if c = '\n' then dropCR acc.reverse :: goLinesAux cs []
    else goLinesAux cs (c :: acc)

/-- The sequence of lines `bufio.Scanner`/`ScanLines` yields for an
input: split at `'\n'`, drop one trailing `'\r'` per line, and do not
yield a final empty line when the input ends with `'\n'`. -/
def goLines (cs : List Char) : List (List Char) :=
  goLinesAux cs []

/-- Prefix test on character lists (first argument is the pattern). -/
def startsWithS : List Char → List Char → Bool
  | [], _ => true
  | _ :: _, [] => false
  | p :: ps, c :: cs => p = c && startsWithS ps cs

/-- Tail check for the link regex: somewhere in the list there is `") "`
followed by at least one character.  This is exactly satisfiability of
`(.*?)/?\) (.+)` on a newline-free line: the lazy group and the optional
slash absorb arbitrary characters, so a match exists iff `") "` occurs
with a nonempty remainder after it. -/
def closeSeek : List Char → Bool
  | ')' :: ' ' :: _ :: _ => true
  | _ :: cs => closeSeek cs
  | [] => false

/-- After the group-1 characters: an occurrence of `"](../"` (at any
offset, the rest of group 1 absorbing the skipped characters) followed
by a `closeSeek` tail. -/
def linkSeek : List Char → Bool
  | [] => false
  | c :: cs =>
    (startsWithS [']', '(', '.', '.', '/'] (c :: cs) && closeSeek ((c :: cs).drop 5))
      || linkSeek cs

/-- `cs` is the text following a `'['`: group 1 (`(.+)`) needs at least
one character, then `linkSeek`. -/
def linkAfter : List Char → Bool
  | [] => false
  | _ :: cs => linkSeek cs

/-- `regexp.MustCompile("\\[(.+)\\]\\(\\.\\./(.*?)/?\\) (.+)").FindStringSubmatch(line) != nil`
for a newline-free line: some `'['` is followed by at least one
character, then `"](../"`, then later `") "` with a nonempty tail.
All groups match arbitrary newline-free characters, so existence of a
match is exactly this decomposition. -/
def isLinkLine : List Char → Bool
  | [] => false
  | c :: cs => (c = '[' && linkAfter cs) || isLinkLine cs

/-- `matches[0]` of the link regex: the regex is unanchored and its
final greedy `(.+)` runs to the end of the line, so the matched
substring is the suffix starting at the leftmost `'['` from which a
match exists. -/
def linkCapture : List Char → List Char
  | [] => []
  | c :: cs => if c = '[' && linkAfter cs then c :: cs else linkCapture cs

/-- `regexp.MustCompile("^\\t\\t#[^\\s]+").MatchString(line)`: the line
starts with two tabs, `'#'`, and at least one non-whitespace
character. -/
def isTagLine : List Char → Bool
  | c1 :: c2 :: c3 :: c4 :: _ =>
    c1 = '\t' && c2 = '\t' && c3 = '#' && !goSpace c4
  | _ => false

/-- `strings.TrimPrefix(line, "\t\t")`. -/
def dropTabs : List Char → List Char
  | '\t' :: '\t' :: r => r
  | l => l

/-- `strings.Split(s, " ")`: all (possibly empty) segments between
single spaces; the empty input yields one empty segment. -/
def splitSpAux : List Char → List Char → List (List Char)
  | [], acc => [acc.reverse]
  | c :: cs, acc =>
    if c = ' ' then acc.reverse :: splitSpAux cs [] else splitSpAux cs (c :: acc)

/-- The tags contributed by a tag line in `splitZettel`: trim the two
leading tabs, split on single spaces, keep the tokens starting with
`'#'` with that `'#'` stripped. -/
def tagTokens (l : List Char) : List (List Char) :=
  (splitSpAux (dropTabs l) []).filterMap fun t =>
    match t with
    | '#' :: r => some r
    | _ => none

/-- `strings.HasPrefix(line, "# ")` together with
`strings.TrimPrefix(line, "# ")`: `some rest` when the line is
`"# " ++ rest`. -/
def titleRest : List Char → Option (List Char)
  | c1 :: c2 :: r => if c1 = '#' ∧ c2 = ' ' then some r else none
  | _ => none

/-- The loop state of `splitZettel`: current title, whether the title
has been seen (`isBody`), and the accumulated body lines, link captures
and tags. -/
structure SplitAcc where
  title : List Char := []
  isBody : Bool := false
  body : List (List Char) := []
  links : List (List Char) := []
  tags : List (List Char) := []
deriving DecidableEq

/-- The non-title branches of the `splitZettel` scan loop: link test,
then tag test, then body accumulation (only once a title was seen). -/
def splitRest (a : SplitAcc) (l : List Char) : SplitAcc :=
  if isLinkLine l then { a with links := a.links ++ [linkCapture l] }
  else if isTagLine l then { a with tags := a.tags ++ tagTokens l }
  else if a.isBody then { a with body := a.body ++ [l] }
  else a

/-- One iteration of the `splitZettel` scan loop.  The title branch
fires only while `title` is still the empty string (which it remains if
a line `"# "` sets an empty title). -/
def splitStep (a : SplitAcc) (l : List Char) : SplitAcc :=
  if a.title = [] then
    match titleRest l with
    | some t => { a with title := t, isBody := true }
    | none => splitRest a l
  else splitRest a l

/-- Running the `splitZettel` scan loop over a list of lines. -/
def splitRun (ls : List (List Char)) : SplitAcc :=
  ls.foldl splitStep {}

/-- `strings.Join(bodyLines, "\n")` on character lists. -/
def intercalateNl : List (List Char) → List Char
  | [] => []
  | [l] => l
  | l :: ls => l ++ '\n' :: intercalateNl ls

/-- `splitZettel` from internal/storage/storage.go: break note content
into title, body, link captures and tags. -/
def splitZettel (content : String) : String × String × List String × List String :=
  let a := splitRun (goLines content.data)
  (String.mk a.title, String.mk (intercalateNl a.body),
    a.links.map String.mk, a.tags.map String.mk)

/-! Lemmas about the scanner. -/

theorem mem_of_getLast?_eq {α : Type} {l : List α} {a : α}
    (h : l.getLast? = some a) : a ∈ l := by
  induction l with
  | nil => simp [List.getLast?] at h
  | cons x xs ih =>
    cases xs with
    | nil => simp [List.getLast?] at h; simp [h]
    | cons y ys =>
      rw [List.getLast?_cons_cons] at h
      exact List.mem_cons_of_mem _ (ih h)

theorem dropCR_of_not_mem {l : List Char} (h : '\r' ∉ l) : dropCR l = l := by
  unfold dropCR
  split
  · next heq => exact absurd (mem_of_getLast?_eq heq) h
  · rfl

theorem mem_dropCR {c : Char} {l : List Char} (h : c ∈ dropCR l) : c ∈ l := by
  unfold dropCR at h
  split at h
  · exact List.dropLast_subset _ h
  · exact h

theorem goLinesAux_append_nl {xs : List Char} (h : '\n' ∉ xs) :
    ∀ acc ys, goLinesAux (xs ++ '\n' :: ys) acc =
      dropCR (acc.reverse ++ xs) :: goLinesAux ys [] := by
  induction xs with
  | nil => intro acc ys; simp [goLinesAux]
  | cons x xs ih =>
    intro acc ys
    simp only [List.mem_cons, not_or] at h
    have hx : x ≠ '\n' := fun hh => h.1 hh.symm
    show goLinesAux (x :: (xs ++ '\n' :: ys)) acc = _
    simp only [goLinesAux, List.append_eq, if_neg hx]
    rw [ih h.2]
    simp [List.append_assoc]

theorem goLinesAux_no_nl {xs : List Char} (h : '\n' ∉ xs) :
    ∀ acc, goLinesAux xs acc =
      if acc.reverse ++ xs = [] then [] else [dropCR (acc.reverse ++ xs)] := by
  induction xs with
  | nil =>
    intro acc
    cases acc with
    | nil => simp [goLinesAux]
    | cons a as => simp [goLinesAux]
  | cons x xs ih =>
    intro acc
    simp only [List.mem_cons, not_or] at h
    have hx : x ≠ '\n' := fun hh => h.1 hh.symm
    simp only [goLinesAux, List.append_eq, if_neg hx]
    rw [ih h.2 (x :: acc)]
    have h1 : (x :: acc).reverse ++ xs ≠ [] := by simp
    have h2 : acc.reverse ++ x :: xs ≠ [] := by simp
    rw [if_neg h1, if_neg h2]
    simp [List.append_assoc]

theorem goLinesAux_mem_no_nl :
    ∀ (cs acc : List Char), '\n' ∉ acc →
      ∀ l ∈ goLinesAux cs acc, '\n' ∉ l := by
  intro cs
  induction cs with
  | nil =>
    intro acc hacc l hl
    cases acc with
    | nil => simp [goLinesAux] at hl
    | cons a as =>
      simp only [goLinesAux, List.mem_singleton] at hl
      subst hl
      intro hmem
      exact hacc (List.mem_reverse.1 (mem_dropCR hmem))
  | cons c cs ih =>
    intro acc hacc l hl
    by_cases hc : c = '\n'
    · subst hc
      rw [show goLinesAux ('\n' :: cs) acc
            = dropCR acc.reverse :: goLinesAux cs [] from by simp [goLinesAux]] at hl
      rcases List.mem_cons.1 hl with h1 | h1
      · subst h1
        intro hmem
        exact hacc (List.mem_reverse.1 (mem_dropCR hmem))
      · exact ih [] (by simp) l h1
    · simp only [goLinesAux, if_neg hc] at hl
      refine ih (c :: acc) ?_ l hl
      intro hmem
      rcases List.mem_cons.1 hmem with h1 | h1
      · exact hc h1.symm
      · exact hacc h1

theorem goLines_no_nl {cs : List Char} {l : List Char}
    (hl : l ∈ goLines cs) : '\n' ∉ l :=
  goLinesAux_mem_no_nl cs [] (by simp) l hl

theorem goLinesAux_ne_nil :
    ∀ (cs acc : List Char), cs ≠ [] ∨ acc ≠ [] → goLinesAux cs acc ≠ [] := by
  intro cs
  induction cs with
  | nil =>
    intro acc h
    cases acc with
    | nil => rcases h with h | h <;> exact absurd rfl h
    | cons a as => simp [goLinesAux]
  | cons c cs ih =>
    intro acc _
    by_cases hc : c = '\n'
    · subst hc; simp [goLinesAux]
    · simp only [goLinesAux, if_neg hc]
      exact ih (c :: acc) (Or.inr (by simp))

theorem goLines_ne_nil {cs : List Char} (h : cs ≠ []) : goLines cs ≠ [] :=
  goLinesAux_ne_nil cs [] (Or.inl h)

theorem mem_intercalateNl {c : Char} :
    ∀ {L : List (List Char)} {l : List Char}, l ∈ L → c ∈ l →
      c ∈ intercalateNl L := by
  intro L
  induction L with
  | nil => intro l h; simp at h
  | cons x L ih =>
    intro l hl hc
    cases L with
    | nil =>
      simp only [List.mem_singleton] at hl
      subst hl
      simpa [intercalateNl] using hc
    | cons y L' =>
      rcases List.mem_cons.1 hl with rfl | hl'
      · show c ∈ l ++ '\n' :: intercalateNl (y :: L')
        simp [hc]
      · show c ∈ x ++ '\n' :: intercalateNl (y :: L')
        simp [ih hl' hc]

theorem intercalateNl_concat_nil_getLast {L : List (List Char)} (h : L ≠ []) :
    (intercalateNl (L ++ [[]])).getLast? = some '\n' := by
  induction L with
  | nil => exact absurd rfl h
  | cons x L ih =>
    cases L with
    | nil =>
      show (intercalateNl [x, []]).getLast? = some '\n'
      show (x ++ '\n' :: intercalateNl [[]]).getLast? = some '\n'
      show (x ++ ['\n']).getLast? = some '\n'
      rw [List.getLast?_append_of_ne_nil x (by simp)]
      rfl
    | cons y L' =>
      show (x ++ '\n' :: intercalateNl ((y :: L') ++ [[]])).getLast? = some '\n'
      have hrec := ih (by simp)
      have hne : intercalateNl ((y :: L') ++ [[]]) ≠ [] := by
        intro hempty
        rw [hempty] at hrec
        simp [List.getLast?] at hrec
      rw [List.getLast?_append_of_ne_nil x (by simp)]
      rw [show ('\n' :: intercalateNl ((y :: L') ++ [[]]))
            = ['\n'] ++ intercalateNl ((y :: L') ++ [[]]) from rfl]
      rw [List.getLast?_append_of_ne_nil ['\n'] hne]
      exact hrec

theorem goLines_intercalateNl :
    ∀ (L : List (List Char)),
      (∀ l ∈ L, '\n' ∉ l) → (∀ l ∈ L, '\r' ∉ l) → L.getLast? ≠ some [] →
      goLines (intercalateNl L) = L := by
  intro L
  induction L with
  | nil => intro _ _ _; rfl
  | cons x L ih =>
    intro hnl hcr hlast
    cases L with
    | nil =>
      have hx : x ≠ [] := by
        intro hempty
        exact hlast (by simp [hempty, List.getLast?])
      show goLines (intercalateNl [x]) = [x]
      show goLines x = [x]
      unfold goLines
      rw [goLinesAux_no_nl (hnl x (by simp)) []]
      simp [hx, dropCR_of_not_mem (hcr x (by simp))]
    | cons y L' =>
      show goLines (x ++ '\n' :: intercalateNl (y :: L')) = x :: y :: L'
      unfold goLines
      rw [goLinesAux_append_nl (hnl x (by simp))]
      have hrest : goLinesAux (intercalateNl (y :: L')) [] = y :: L' := by
        have := ih (fun l hl => hnl l (List.mem_cons_of_mem _ hl))
          (fun l hl => hcr l (List.mem_cons_of_mem _ hl))
          (by
            intro hcontra
            apply hlast
            rw [← hcontra]
            exact (List.getLast?_cons_cons ..).symm ▸ rfl)
        exact this
      rw [hrest]
      simp [dropCR_of_not_mem (hcr x (by simp))]

/-! Lemmas about the splitZettel scan loop. -/

theorem titleRest_eq_some {l t : List Char} (h : titleRest l = some t) :
    l = '#' :: ' ' :: t := by
  unfold titleRest at h
  split at h
  · next c1 c2 r =>
    split at h
    · next hc =>
      obtain ⟨h1, h2⟩ := hc
      subst h1; subst h2
      injection h with h
      rw [h]
    · exact absurd h (by simp)
  · exact absurd h (by simp)

theorem isTagLine_of_titleRest {l t : List Char} (h : titleRest l = some t) :
    isTagLine l = false := by
  rw [titleRest_eq_some h]
  rcases t with _ | ⟨x, _ | ⟨y, r⟩⟩ <;> rfl

theorem titleRest_no_nl {l t : List Char} (h : titleRest l = some t)
    (hl : '\n' ∉ l) : '\n' ∉ t := by
  rw [titleRest_eq_some h] at hl
  intro hmem
  exact hl (by simp [hmem])

theorem splitRest_link {a : SplitAcc} {l : List Char} (h : isLinkLine l = true) :
    splitRest a l = { a with links := a.links ++ [linkCapture l] } := by
  unfold splitRest
  rw [if_pos h]

theorem splitRest_tag {a : SplitAcc} {l : List Char}
    (h1 : isLinkLine l = false) (h2 : isTagLine l = true) :
    splitRest a l = { a with tags := a.tags ++ tagTokens l } := by
  unfold splitRest
  rw [if_neg (by simp [h1]), if_pos h2]

theorem splitRest_body {a : SplitAcc} {l : List Char}
    (h1 : isLinkLine l = false) (h2 : isTagLine l = false)
    (h3 : a.isBody = true) :
    splitRest a l = { a with body := a.body ++ [l] } := by
  unfold splitRest
  rw [if_neg (by simp [h1]), if_neg (by simp [h2]), if_pos h3]

theorem splitRest_skip {a : SplitAcc} {l : List Char}
    (h1 : isLinkLine l = false) (h2 : isTagLine l = false)
    (h3 : a.isBody = false) :
    splitRest a l = a := by
  unfold splitRest
  rw [if_neg (by simp [h1]), if_neg (by simp [h2]), if_neg (by simp [h3])]

theorem splitStep_title_some {a : SplitAcc} {l t : List Char}
    (h1 : a.title = []) (h2 : titleRest l = some t) :
    splitStep a l = { a with title := t, isBody := true } := by
  unfold splitStep
  rw [if_pos h1, h2]

theorem splitStep_rest {a : SplitAcc} {l : List Char}
    (h : a.title = [] → titleRest l = none) :
    splitStep a l = splitRest a l := by
  unfold splitStep
  by_cases h1 : a.title = []
  · rw [if_pos h1, h h1]
  · rw [if_neg h1]

theorem splitRest_title (a : SplitAcc) (l : List Char) :
    (splitRest a l).title = a.title := by
  unfold splitRest
  split
  · rfl
  · split
    · rfl
    · split
      · rfl
      · rfl

theorem splitRest_tags_eq (a : SplitAcc) (l : List Char) :
    (splitRest a l).tags =
      a.tags ++ (if !isLinkLine l && isTagLine l then tagTokens l else []) := by
  by_cases hL : isLinkLine l
  · rw [splitRest_link hL]; simp [hL]
  · have hL' : isLinkLine l = false := by simpa using hL
    by_cases hT : isTagLine l
    · rw [splitRest_tag hL' hT]; simp [hL', hT]
    · have hT' : isTagLine l = false := by simpa using hT
      by_cases hB : a.isBody
      · rw [splitRest_body hL' hT' hB]; simp [hT']
      · rw [splitRest_skip hL' hT' (by simpa using hB)]; simp [hT']

/-- Lines that end up in the body: they matched neither the link nor
the tag pattern, and (when the final title is empty, meaning the title
branch stayed armed throughout) they do not carry a `"# "` prefix
either. -/
def GoodLine (t l : List Char) : Prop :=
  isLinkLine l = false ∧ isTagLine l = false ∧ (t = [] → titleRest l = none)

theorem splitRest_body_good {a : SplitAcc} {l : List Char}
    (hcond : a.title = [] → titleRest l = none)
    (h : ∀ x ∈ a.body, GoodLine a.title x) :
    ∀ x ∈ (splitRest a l).body, GoodLine (splitRest a l).title x := by
  by_cases hL : isLinkLine l
  · rw [splitRest_link hL]; exact h
  · have hL' : isLinkLine l = false := by simpa using hL
    by_cases hT : isTagLine l
    · rw [splitRest_tag hL' hT]; exact h
    · have hT' : isTagLine l = false := by simpa using hT
      by_cases hB : a.isBody
      · rw [splitRest_body hL' hT' hB]
        intro x hx
        rcases List.mem_append.1 hx with hx1 | hx1
        · exact h x hx1
        · rw [List.mem_singleton] at hx1
          subst hx1
          exact ⟨hL', hT', hcond⟩
      · rw [splitRest_skip hL' hT' (by simpa using hB)]; exact h

theorem splitStep_body_good {a : SplitAcc} {l : List Char}
    (h : ∀ x ∈ a.body, GoodLine a.title x) :
    ∀ x ∈ (splitStep a l).body, GoodLine (splitStep a l).title x := by
  by_cases h1 : a.title = []
  · cases h2 : titleRest l with
    | some t =>
      rw [splitStep_title_some h1 h2]
      intro x hx
      obtain ⟨g1, g2, g3⟩ := h x hx
      exact ⟨g1, g2, fun _ => g3 h1⟩
    | none =>
      rw [splitStep_rest (fun _ => h2)]
      exact splitRest_body_good (fun _ => h2) h
  · rw [splitStep_rest (fun hc => absurd hc h1)]
    exact splitRest_body_good (fun hc => absurd hc h1) h

theorem splitRun_body_good :
    ∀ (ls : List (List Char)) (a : SplitAcc),
      (∀ x ∈ a.body, GoodLine a.title x) →
      ∀ x ∈ (ls.foldl splitStep a).body, GoodLine (ls.foldl splitStep a).title x := by
  intro ls
  induction ls with
  | nil => intro a h; exact h
  | cons l ls ih =>
    intro a h
    exact ih (splitStep a l) (splitStep_body_good h)

theorem splitStep_body_mem {a : SplitAcc} {l x : List Char}
    (hx : x ∈ (splitStep a l).body) : x ∈ a.body ∨ x = l := by
  unfold splitStep splitRest at hx
  split at hx
  · split at hx
    · exact Or.inl hx
    · split at hx
      · exact Or.inl hx
      · split at hx
        · exact Or.inl hx
        · split at hx
          · rcases List.mem_append.1 hx with h1 | h1
            · exact Or.inl h1
            · exact Or.inr (List.mem_singleton.1 h1)
          · exact Or.inl hx
  · split at hx
    · exact Or.inl hx
    · split at hx
      · exact Or.inl hx
      · split at hx
        · rcases List.mem_append.1 hx with h1 | h1
          · exact Or.inl h1
          · exact Or.inr (List.mem_singleton.1 h1)
        · exact Or.inl hx

theorem splitRun_body_mem :
    ∀ (ls : List (List Char)) (a : SplitAcc) (x : List Char),
      x ∈ (ls.foldl splitStep a).body → x ∈ a.body ∨ x ∈ ls := by
  intro ls
  induction ls with
  | nil => intro a x h; exact Or.inl h
  | cons l ls ih =>
    intro a x h
    rcases ih (splitStep a l) x h with h1 | h1
    · rcases splitStep_body_mem h1 with h2 | h2
      · exact Or.inl h2
      · exact Or.inr (by simp [h2])
    · exact Or.inr (List.mem_cons_of_mem _ h1)

theorem splitStep_title_cases {a : SplitAcc} {l : List Char} :
    (splitStep a l).title = a.title ∨ titleRest l = some (splitStep a l).title := by
  by_cases h1 : a.title = []
  · cases h2 : titleRest l with
    | some t =>
      rw [splitStep_title_some h1 h2]
      right
      rfl
    | none =>
      rw [splitStep_rest (fun _ => h2)]
      exact Or.inl (splitRest_title a l)
  · rw [splitStep_rest (fun hc => absurd hc h1)]
    exact Or.inl (splitRest_title a l)

theorem splitRun_title_cases :
    ∀ (ls : List (List Char)) (a : SplitAcc),
      (ls.foldl splitStep a).title = a.title ∨
        ∃ l ∈ ls, titleRest l = some ((ls.foldl splitStep a).title) := by
  intro ls
  induction ls with
  | nil => intro a; exact Or.inl rfl
  | cons l ls ih =>
    intro a
    show (ls.foldl splitStep (splitStep a l)).title = a.title ∨
      ∃ x ∈ l :: ls, titleRest x = some ((ls.foldl splitStep (splitStep a l)).title)
    rcases ih (splitStep a l) with h1 | h1
    · rw [h1]
      rcases splitStep_title_cases (a := a) (l := l) with h2 | h2
      · exact Or.inl h2
      · exact Or.inr ⟨l, by simp, h2⟩
    · obtain ⟨x, hx1, hx2⟩ := h1
      exact Or.inr ⟨x, List.mem_cons_of_mem _ hx1, hx2⟩

theorem splitRun_all_body :
    ∀ (ls : List (List Char)) (a : SplitAcc),
      a.isBody = true →
      (∀ l ∈ ls, GoodLine a.title l) →
      ls.foldl splitStep a = { a with body := a.body ++ ls } := by
  intro ls
  induction ls with
  | nil => intro a _ _; simp
  | cons l ls ih =>
    intro a hb h
    obtain ⟨g1, g2, g3⟩ := h l (by simp)
    have hstep : splitStep a l = { a with body := a.body ++ [l] } := by
      rw [splitStep_rest g3, splitRest_body g1 g2 hb]
    have hrec := ih { a with body := a.body ++ [l] } (by simp [hb])
      (fun x hx => h x (List.mem_cons_of_mem _ hx))
    show ls.foldl splitStep (splitStep a l) = _
    rw [hstep, hrec]
    simp

theorem splitStep_tags_eq (a : SplitAcc) (l : List Char) :
    (splitStep a l).tags =
      a.tags ++ (if !isLinkLine l && isTagLine l then tagTokens l else []) := by
  by_cases h1 : a.title = []
  · cases h2 : titleRest l with
    | some t =>
      rw [splitStep_title_some h1 h2]
      simp [isTagLine_of_titleRest h2]
    | none =>
      rw [splitStep_rest (fun _ => h2)]
      exact splitRest_tags_eq a l
  · rw [splitStep_rest (fun hc => absurd hc h1)]
    exact splitRest_tags_eq a l

theorem splitRun_tags :
    ∀ (ls : List (List Char)) (a : SplitAcc),
      (ls.foldl splitStep a).tags =
        a.tags ++ ((ls.filter fun l => !isLinkLine l && isTagLine l).map tagTokens).flatten := by
  intro ls
  induction ls with
  | nil => intro a; simp
  | cons l ls ih =>
    intro a
    show (ls.foldl splitStep (splitStep a l)).tags = _
    rw [ih, splitStep_tags_eq]
    rw [List.filter_cons]
    by_cases hc : (!isLinkLine l && isTagLine l) = true
    · rw [if_pos hc, if_pos hc]
      simp [List.append_assoc]
    · rw [if_neg hc, if_neg hc]
      simp

/-- String eta: rebuilding a string from its character data. -/
theorem mk_data (s : String) : String.mk s.data = s := rfl

/-! Claims C8 and C9: the parser. -/

/-- Claim C8, counterexample.  The line `"    #tag"` starts with four
spaces followed by the `#`-prefixed word `#tag`; by the claim it would
be classified as a tag line, contribute the tag `"tag"` and be excluded
from the body.  `splitZettel` instead matches tag lines with
`^\t\t#[^\s]+` (two tabs), so the parse yields no tags at all and the
line stays in the body. -/
theorem c8_counterexample :
    splitZettel "# T\n    #tag" = ("T", "    #tag", [], []) := by
  decide

/-- Claim C8, amended.  In `splitZettel` a line contributes tags exactly
when it begins with two tab characters followed by `#` and a
non-whitespace character (pattern `^\t\t#[^\s]+`) and does not match
the link pattern (which is tested first); each such line is excluded
from the body, and its tags are its space-separated tokens beginning
with `#`, with the leading `#` stripped and all other tokens ignored
(`tagTokens`). -/
theorem c8_amended (content : String) :
    (splitZettel content).2.2.2 =
      ((((goLines content.data).filter fun l =>
        !isLinkLine l && isTagLine l).map tagTokens).flatten).map String.mk
    ∧ ∀ l ∈ (splitRun (goLines content.data)).body, isTagLine l = false := by
  constructor
  · show ((splitRun (goLines content.data)).tags).map String.mk = _
    rw [show splitRun (goLines content.data)
          = (goLines content.data).foldl splitStep {} from rfl]
    rw [splitRun_tags (goLines content.data) {}]
    simp
  · intro l hl
    exact (splitRun_body_good (goLines content.data) {}
      (fun x hx => absurd hx (List.not_mem_nil x)) l hl).2.1

/-- Claim C9, counterexample.  Parsing `"# T\na\n\n"` yields title `"T"`
and body `"a\n"` (the scanner reports a final empty line for the
trailing blank line); re-parsing the reassembled text `"# T\na\n"`
yields body `"a"`, because the scanner emits no final empty token when
the input ends in a newline.  The round trip therefore does not return
the same body. -/
theorem c9_counterexample :
    (splitZettel "# T\na\n\n").1 = "T" ∧
    (splitZettel "# T\na\n\n").2.1 = "a\n" ∧
    (splitZettel ("# " ++ "T" ++ "\n" ++ "a\n")).2.1 = "a" ∧
    ("a" : String) ≠ "a\n" := by
  refine ⟨by decide, by decide, by decide, by decide⟩

/-- Claim C9, amended.  If parsing yields title `T` and body `B`, then
parsing the reassembled text `"# " ++ T ++ "\n" ++ B` yields exactly
title `T` and body `B` again, provided `T` and `B` are free of carriage
returns and `B` does not end in a newline (a trailing newline — i.e. a
final blank body line — is lost by the scanner on re-parsing, and a
line-final carriage return is swallowed by its `dropCR`). -/
theorem c9_roundtrip (content T B : String) (L G : List String)
    (h : splitZettel content = (T, B, L, G))
    (hT : '\r' ∉ T.data) (hB : '\r' ∉ B.data)
    (hend : B.data.getLast? ≠ some '\n') :
    (splitZettel ("# " ++ T ++ "\n" ++ B)).1 = T ∧
    (splitZettel ("# " ++ T ++ "\n" ++ B)).2.1 = B := by
  have hcomp : (String.mk (splitRun (goLines content.data)).title,
      String.mk (intercalateNl (splitRun (goLines content.data)).body),
      ((splitRun (goLines content.data)).links).map String.mk,
      ((splitRun (goLines content.data)).tags).map String.mk) = (T, B, L, G) := h
  have ht : (splitRun (goLines content.data)).title = T.data := by
    have h1 := congrArg (fun p => p.1) hcomp
    exact congrArg String.data h1
  have hbd : intercalateNl (splitRun (goLines content.data)).body = B.data := by
    have h1 := congrArg (fun p => p.2.1) hcomp
    exact congrArg String.data h1
  have hTnl : '\n' ∉ T.data := by
    rcases splitRun_title_cases (goLines content.data) {} with h1 | h1
    · rw [show (goLines content.data).foldl splitStep {}
            = splitRun (goLines content.data) from rfl, ht] at h1
      rw [h1]
      exact List.not_mem_nil _
    · obtain ⟨l, hl1, hl2⟩ := h1
      rw [show (goLines content.data).foldl splitStep {}
            = splitRun (goLines content.data) from rfl, ht] at hl2
      exact titleRest_no_nl hl2 (goLines_no_nl hl1)
  have hxsnl : '\n' ∉ ('#' :: ' ' :: T.data) := by
    intro hm
    rcases List.mem_cons.1 hm with h1 | hm
    · exact absurd h1 (by decide)
    rcases List.mem_cons.1 hm with h1 | hm
    · exact absurd h1 (by decide)
    · exact hTnl hm
  have hxscr : '\r' ∉ ('#' :: ' ' :: T.data) := by
    intro hm
    rcases List.mem_cons.1 hm with h1 | hm
    · exact absurd h1 (by decide)
    rcases List.mem_cons.1 hm with h1 | hm
    · exact absurd h1 (by decide)
    · exact hT hm
  have hR : ("# " ++ T ++ "\n" ++ B).data
      = ('#' :: ' ' :: T.data) ++ '\n' :: B.data := by
    simp [String.data_append]
  have hlines : goLines ("# " ++ T ++ "\n" ++ B).data
      = ('#' :: ' ' :: T.data) :: goLines B.data := by
    rw [hR]
    show goLinesAux (('#' :: ' ' :: T.data) ++ '\n' :: B.data) [] = _
    rw [goLinesAux_append_nl hxsnl]
    rw [show (([] : List Char).reverse ++ ('#' :: ' ' :: T.data))
          = '#' :: ' ' :: T.data by simp]
    rw [dropCR_of_not_mem hxscr]
    rfl
  have hstep1 : splitStep {} ('#' :: ' ' :: T.data)
      = { title := T.data, isBody := true, body := [], links := [], tags := [] } := by
    have h2 : titleRest ('#' :: ' ' :: T.data) = some T.data := rfl
    rw [splitStep_title_some rfl h2]
  have hbodyOf : ∀ x ∈ (splitRun (goLines content.data)).body,
      x ∈ goLines content.data := by
    intro x hx
    rcases splitRun_body_mem (goLines content.data) {} x hx with h1 | h1
    · exact absurd h1 (List.not_mem_nil x)
    · exact h1
  have hgood : ∀ l ∈ (splitRun (goLines content.data)).body, GoodLine T.data l := by
    intro l hl
    have := splitRun_body_good (goLines content.data) {}
      (fun x hx => absurd hx (List.not_mem_nil x)) l hl
    rw [show (goLines content.data).foldl splitStep {}
          = splitRun (goLines content.data) from rfl, ht] at this
    exact this
  -- the reassembled parse, as a function of the lines of B
  have hfold : ∀ ls2, goLines B.data = ls2 →
      (∀ l ∈ ls2, GoodLine T.data l) →
      splitRun (goLines ("# " ++ T ++ "\n" ++ B).data)
        = { title := T.data, isBody := true, body := ls2, links := [], tags := [] } := by
    intro ls2 hls2 hg
    show (goLines ("# " ++ T ++ "\n" ++ B).data).foldl splitStep {} = _
    rw [hlines]
    rw [List.foldl_cons, hstep1, hls2]
    rw [splitRun_all_body ls2 _ rfl hg]
    simp
  by_cases hb0 : (splitRun (goLines content.data)).body = []
  · have hBnil : B.data = [] := by rw [← hbd, hb0]; rfl
    have hfold0 := hfold [] (by rw [hBnil]; rfl) (by intro l hl; cases hl)
    constructor
    · show String.mk (splitRun (goLines ("# " ++ T ++ "\n" ++ B).data)).title = T
      rw [hfold0]
    · show String.mk (intercalateNl
        (splitRun (goLines ("# " ++ T ++ "\n" ++ B).data)).body) = B
      rw [hfold0]
      show String.mk (intercalateNl []) = B
      rw [show intercalateNl [] = ([] : List Char) from rfl, ← hBnil]
  · by_cases hb1 : (splitRun (goLines content.data)).body = [[]]
    · have hBnil : B.data = [] := by rw [← hbd, hb1]; rfl
      have hfold0 := hfold [] (by rw [hBnil]; rfl) (by intro l hl; cases hl)
      constructor
      · show String.mk (splitRun (goLines ("# " ++ T ++ "\n" ++ B).data)).title = T
        rw [hfold0]
      · show String.mk (intercalateNl
          (splitRun (goLines ("# " ++ T ++ "\n" ++ B).data)).body) = B
        rw [hfold0]
        show String.mk (intercalateNl []) = B
        rw [show intercalateNl [] = ([] : List Char) from rfl, ← hBnil]
    · have hlast : (splitRun (goLines content.data)).body.getLast? ≠ some [] := by
        intro hcontra
        have hgl := List.getLast?_eq_getLast_of_ne_nil hb0
        rw [hgl] at hcontra
        injection hcontra with hcontra
        have hdecomp := List.dropLast_append_getLast hb0
        rw [hcontra] at hdecomp
        by_cases hdl : (splitRun (goLines content.data)).body.dropLast = []
        · rw [hdl] at hdecomp
          exact hb1 (by rw [← hdecomp]; rfl)
        · have := intercalateNl_concat_nil_getLast hdl
          rw [hdecomp, hbd] at this
          exact hend this
      have hLnl : ∀ l ∈ (splitRun (goLines content.data)).body, '\n' ∉ l :=
        fun l hl => goLines_no_nl (hbodyOf l hl)
      have hLcr : ∀ l ∈ (splitRun (goLines content.data)).body, '\r' ∉ l := by
        intro l hl hm
        exact hB (hbd ▸ mem_intercalateNl hl hm)
      have hglines : goLines B.data = (splitRun (goLines content.data)).body := by
        rw [← hbd]
        exact goLines_intercalateNl _ hLnl hLcr hlast
      have hfoldG := hfold _ hglines hgood
      constructor
      · show String.mk (splitRun (goLines ("# " ++ T ++ "\n" ++ B).data)).title = T
        rw [hfoldG]
      · show String.mk (intercalateNl
          (splitRun (goLines ("# " ++ T ++ "\n" ++ B).data)).body) = B
        rw [hfoldG]
        show String.mk (intercalateNl (splitRun (goLines content.data)).body) = B
        rw [hbd]

/-- Witness for the amended round trip at a concrete note. -/
theorem c9_roundtrip_witness :
    (splitZettel ("# " ++ "Hi" ++ "\n" ++ "world")).1 = "Hi" ∧
    (splitZettel ("# " ++ "Hi" ++ "\n" ++ "world")).2.1 = "world" :=
  c9_roundtrip "# Hi\nworld" "Hi" "world" [] [] (by decide) (by decide)
    (by decide) (by decide)

/-!
The synchronizer (internal/storage/storage.go).

Go `time.Time` values are embedded as a whole-second value plus a
nanosecond part.  The catalog stores `modTime.Format(time.RFC3339)`,
which drops the sub-second part, and `isoToTime` parses it back, so the
stored mtime is embedded by its whole-second value alone.

SQLite specifics embedded here: `AUTOINCREMENT` columns hand out
strictly increasing ids from a per-table counter; `tag.name` is UNIQUE
(required by the `ON CONFLICT(name)` clause of `insertTags`);
`zettel_tags` has primary key `(zettel_id, tag_id)`; the `link` table
of this storage version has no uniqueness constraint.  The connection
never issues `PRAGMA foreign_keys = ON`, so SQLite's default applies:
foreign keys are not enforced and deleting a zettel row does not
cascade into `link` or `zettel_tags`.

Go maps iterate in unspecified order; the embedding fixes one order
(catalog row order).  The final catalog does not depend on the order in
which the deletion loops visit the map, since each deletion targets
rows by id or name.
-/

/-- A Go `time.Time`: whole seconds and the nanosecond part. -/
structure GoTime where
  sec : Int
  nsec : Nat
deriving DecidableEq

/-- `time.Time.After`: strict instant comparison. -/
def GoTime.after (t u : GoTime) : Bool :=
  t.sec > u.sec || (t.sec = u.sec && t.nsec > u.nsec)

/-- `modTime.Format(time.RFC3339)`: the layout has no fractional
seconds, so the stored string carries exactly the whole-second value. -/
def formatRFC3339 (t : GoTime) : Int :=
  t.sec

/-- `isoToTime` on a stored RFC3339 string: recovers the whole second,
with a zero sub-second part. -/
def isoToTime (m : Int) : GoTime :=
  ⟨m, 0⟩

/-- `isoToTime` as called by `processFiles` on `f.Mtime` where `f` may
be the zero-value `Zettel` of a failed map lookup: the zero value has
`Mtime == ""`, which `time.Parse(time.RFC3339, ...)` rejects. -/
def isoToTimeZ : Option Int → Except String GoTime
  | none => .error "parsing time"
  | some m => .ok (isoToTime m)

/-- A row of the `dir` table. -/
structure DirRow where
  id : Nat
  name : String
deriving DecidableEq

/-- A row of the `zettel` table. -/
structure ZRow where
  id : Nat
  name : String
  title : String
  body : String
  mtime : Int
  dirName : String
deriving DecidableEq

/-- A row of the `link` table (this storage version: content plus the
owning zettel's id). -/
structure LinkRow where
  id : Nat
  content : String
  zettelId : Nat
deriving DecidableEq

/-- A row of the `tag` table. -/
structure TagRow where
  id : Nat
  name : String
deriving DecidableEq

/-- A row of the `zettel_tags` association table. -/
structure ZTRow where
  zettelId : Nat
  tagId : Nat
deriving DecidableEq

/-- The catalog: table contents in rowid order plus the AUTOINCREMENT
counters. -/
structure DB where
  dirs : List DirRow := []
  zettels : List ZRow := []
  links : List LinkRow := []
  tags : List TagRow := []
  zettelTags : List ZTRow := []
  nextDirId : Nat := 1
  nextZettelId : Nat := 1
  nextLinkId : Nat := 1
  nextTagId : Nat := 1
deriving DecidableEq

def emptyDB : DB := {}

/-- A directory entry of a zettel directory (`os.ReadDir` result). -/
structure FsFile where
  name : String
  isDir : Bool := false
  mtime : GoTime := ⟨0, 0⟩
  content : String := ""
deriving DecidableEq

/-- A directory entry of the notes root. -/
structure FsDir where
  name : String
  isDir : Bool := true
  files : List FsFile := []
deriving DecidableEq

/-- The in-memory `Zettel` value `processFiles`/`addZettel` build for a
file before writing it: parsed parts plus the formatted mtime. -/
structure Zettel where
  name : String
  title : String
  body : String
  links : List String
  tags : List String
  mtime : Int
  dirName : String
deriving DecidableEq

/-- Build the `Zettel` value for a file: format the mtime and run
`splitZettel` on the content. -/
def mkZettel (dirName : String) (f : FsFile) : Zettel :=
  let p := splitZettel f.content
  { name := f.name, title := p.1, body := p.2.1, links := p.2.2.1,
    tags := p.2.2.2, mtime := formatRFC3339 f.mtime, dirName := dirName }

/-- `strings.HasSuffix`: byte-level suffix test; on UTF-8 data a
byte-suffix is exactly a character-suffix, embedded here by comparing
reversed character lists. -/
def goHasSuffix (s suffix : String) : Bool :=
  startsWithS suffix.data.reverse s.data.reverse

/-- The markdown filter used by both file loops
(`strings.HasSuffix(name, ".md")` and not a directory). -/
def isMdFile (f : FsFile) : Bool :=
  !f.isDir && goHasSuffix f.name ".md"

/-- `zettelsMap`: group all zettel rows into the nested map
`dir name ↦ file name ↦ row`.  The embedding keeps the map flat as a
row list; a later row with the same `(dir, file)` key overwrites an
earlier one, as in the Go map. -/
def zmOf (zs : List ZRow) : List ZRow :=
  zs.foldl
    (fun m z => m.filter (fun w => !(w.dirName = z.dirName && w.name = z.name)) ++ [z])
    []

/-- `_, exists := zm[dirName]`: the nested map has an entry for a
directory iff some row of it is present. -/
def zmHasDir (zm : List ZRow) (d : String) : Bool :=
  zm.any fun z => z.dirName = d

/-- `f, exists := existingFiles[name]`. -/
def zmLookup (zm : List ZRow) (d n : String) : Option ZRow :=
  zm.find? fun z => z.dirName = d && z.name = n

/-- `delete(zm[dirName], name)`. -/
def zmEraseFile (zm : List ZRow) (d n : String) : List ZRow :=
  zm.filter fun z => !(z.dirName = d && z.name = n)

/-- `delete(zm, dirName)`. -/
def zmEraseDir (zm : List ZRow) (d : String) : List ZRow :=
  zm.filter fun z => !(z.dirName = d)

/-- The rows still registered under one directory. -/
def zmDirRows (zm : List ZRow) (d : String) : List ZRow :=
  zm.filter fun z => z.dirName = d

/-- `insertDir`: `INSERT INTO dir (name) VALUES ($1)` — fails on the
UNIQUE constraint when the name is present. -/
def insertDir (db : DB) (name : String) : DB × Option String :=
  if db.dirs.any (fun d => d.name = name) then
    (db, some "UNIQUE constraint failed: dir.name")
  else
    ({ db with
        dirs := db.dirs ++ [⟨db.nextDirId, name⟩],
        nextDirId := db.nextDirId + 1 }, none)

/-- `insertTags`: for each tag name, either
`INSERT INTO tag (name) VALUES ($1) ON CONFLICT(name) DO NOTHING RETURNING id`
returns a fresh id, or the id of the existing row is selected; then the
`zettel_tags` association is inserted.  A duplicate association
violates the `(zettel_id, tag_id)` primary key and aborts, with the
statements so far (including a freshly inserted tag row) retained in
the transaction. -/
def insertTags : DB → Nat → List String → DB × Option String
  | db, _, [] => (db, none)
  | db, zid, t :: rest =>
    match db.tags.find? (fun r => r.name = t) with
    | some r =>
      if db.zettelTags.any (fun a => a.zettelId = zid && a.tagId = r.id) then
        (db, some "UNIQUE constraint failed: zettel_tags")
      else
        insertTags { db with zettelTags := db.zettelTags ++ [⟨zid, r.id⟩] } zid rest
    | none =>
      if db.zettelTags.any (fun a => a.zettelId = zid && a.tagId = db.nextTagId) then
        ({ db with
            tags := db.tags ++ [⟨db.nextTagId, t⟩],
            nextTagId := db.nextTagId + 1 },
          some "UNIQUE constraint failed: zettel_tags")
      else
        insertTags
          { db with
            tags := db.tags ++ [⟨db.nextTagId, t⟩],
            nextTagId := db.nextTagId + 1,
            zettelTags := db.zettelTags ++ [⟨zid, db.nextTagId⟩] } zid rest

/-- The link insertion loop shared by `insertFile` and `updateFile`:
`INSERT INTO link (content, zettel_id) VALUES ($1, $2)` per parsed
link. -/
def insertLinks (db : DB) (zid : Nat) (contents : List String) : DB :=
  contents.foldl
    (fun d c =>
      { d with
          links := d.links ++ [⟨d.nextLinkId, c, zid⟩],
          nextLinkId := d.nextLinkId + 1 })
    db

/-- `insertFile`: insert the zettel row (`RETURNING id`), then its
links, then its tags. -/
def insertFile (db : DB) (z : Zettel) : DB × Option String :=
  let id := db.nextZettelId
  let db1 : DB :=
    { db with
      zettels := db.zettels ++ [⟨id, z.name, z.title, z.body, z.mtime, z.dirName⟩],
      nextZettelId := id + 1 }
  let db2 := insertLinks db1 id z.links
  insertTags db2 id z.tags

/-- `updateFile`: look up the zettel id by `(name, dir_name)`; the
`UPDATE zettel SET title=$1, body=$2, mtime=$3 WHERE id=$4` statement
is executed with only three bind arguments for four placeholders, so
the driver rejects it — and the code discards that error, leaving the
zettel row unchanged.  Links are then deleted and re-inserted (with
fresh AUTOINCREMENT ids), and the tag associations are deleted and
re-inserted. -/
def updateFile (db : DB) (z : Zettel) : DB × Option String :=
  match db.zettels.find? (fun r => r.name = z.name && r.dirName = z.dirName) with
  | none => (db, some "Failed to get zettel id")
  | some r =>
    let db1 : DB := { db with links := db.links.filter fun l => !(l.zettelId = r.id) }
    let db2 := insertLinks db1 r.id z.links
    let db3 : DB :=
      { db2 with zettelTags := db2.zettelTags.filter fun a => !(a.zettelId = r.id) }
    insertTags db3 r.id z.tags

/-- `deleteFiles`: `DELETE FROM zettel WHERE id = $1` per remaining
row.  Foreign keys are off, so nothing cascades. -/
def deleteFilesRows (db : DB) (rows : List ZRow) : DB :=
  rows.foldl
    (fun d r => { d with zettels := d.zettels.filter fun w => !(w.id = r.id) }) db

/-- `deleteDirs`: `DELETE FROM dir WHERE name = $1` per remaining
directory. -/
def deleteDirsRows (db : DB) (names : List String) : DB :=
  names.foldl
    (fun d n => { d with dirs := d.dirs.filter fun w => !(w.name = n) }) db

/-- The file loop of `addZettel`: read, parse and insert each markdown
file; an insertion failure aborts the loop (the statements so far stay
in the transaction). -/
def addFilesLoop (dirName : String) : DB → List FsFile → DB × Option String
  | db, [] => (db, none)
  | db, f :: rest =>
    if !goHasSuffix f.name ".md" || f.isDir then addFilesLoop dirName db rest
    else
      match insertFile db (mkZettel dirName f) with
      | (db1, some e) => (db1, some e)
      | (db1, none) => addFilesLoop dirName db1 rest

/-- `addZettel`: insert the directory row first, then all markdown
files of the directory. -/
def addZettel (db : DB) (d : FsDir) : DB × Option String :=
  match insertDir db d.name with
  | (db0, some e) => (db0, some e)
  | (db0, none) => addFilesLoop d.name db0 d.files

/-- The file loop of `processFiles`.  For each markdown file: look the
file up in the map, parse the stored mtime — the zero-value `Zettel` of
a missed lookup has an empty mtime string, so `isoToTime` fails and the
whole walk aborts —, then insert new files, update files whose
modification time is `After` the stored (whole-second) time, and mark
visited files by deleting them from the map. -/
def processFilesLoop (dirName : String) :
    DB → List ZRow → List FsFile → Except String (DB × List ZRow)
  | db, zm, [] => .ok (db, zm)
  | db, zm, f :: rest =>
    if f.isDir || !goHasSuffix f.name ".md" then
      processFilesLoop dirName db zm rest
    else
      match isoToTimeZ ((zmLookup zm dirName f.name).map (·.mtime)) with
      | .error e => .error e
      | .ok ft =>
        match zmLookup zm dirName f.name with
        | none =>
          match insertFile db (mkZettel dirName f) with
          | (_, some e) => .error e
          | (db1, none) => processFilesLoop dirName db1 zm rest
        | some _ =>
          if f.mtime.after ft then
            match updateFile db (mkZettel dirName f) with
            | (_, some e) => .error e
            | (db1, none) =>
              processFilesLoop dirName db1 (zmEraseFile zm dirName f.name) rest
          else
            processFilesLoop dirName db (zmEraseFile zm dirName f.name) rest

/-- `processFiles`: reconcile one existing directory, then delete the
rows of files that were not visited (deleted on disk). -/
def processFiles (db : DB) (zm : List ZRow) (d : FsDir) :
    Except String (DB × List ZRow) :=
  if zmHasDir zm d.name then
    match processFilesLoop d.name db zm d.files with
    | .error e => .error e
    | .ok (db1, zm1) => .ok (deleteFilesRows db1 (zmDirRows zm1 d.name), zm1)
  else
    .error "Directory doesn't exist"

/-- The directory loop of `processZettels`: skip non-directories; run
`addZettel` for new directories, logging (and absorbing) its failure;
run `processFiles` for known directories, propagating its failure;
mark processed directories by removing them from the map. -/
def processZettelsLoop :
    DB → List ZRow → List FsDir → Except String (DB × List ZRow × List String)
  | db, zm, [] => .ok (db, zm, [])
  | db, zm, d :: rest =>
    if !d.isDir then processZettelsLoop db zm rest
    else if zmHasDir zm d.name then
      match processFiles db zm d with
      | .error e => .error e
      | .ok (db1, zm1) => processZettelsLoop db1 (zmEraseDir zm1 d.name) rest
    else
      match processZettelsLoop (addZettel db d).1 zm rest with
      | .error e => .error e
      | .ok (db2, zm2, log) => .ok (db2, zm2, (addZettel db d).2.toList ++ log)

/-- `processZettels`: walk the root, then delete every zettel row and
directory row still left in the map (removed on disk). -/
def processZettels (db : DB) (zm : List ZRow) (fs : List FsDir) :
    Except String (DB × List String) :=
  match processZettelsLoop db zm fs with
  | .error e => .error e
  | .ok (db1, zm1, log) =>
    .ok (deleteDirsRows (deleteFilesRows db1 zm1) (zm1.map (·.dirName)), log)

/-- `UpdateDB`: build the map from the catalog, open the transaction,
walk, and commit.  An error aborts before the commit, so the
transaction is rolled back. -/
def updateDB (fs : List FsDir) (db : DB) : Except String (DB × List String) :=
  processZettels db (zmOf db.zettels) fs

/-- The caller-visible catalog after a sync: the committed state on
success, the untouched catalog after a rollback. -/
def runSync (fs : List FsDir) (db : DB) : DB :=
  match updateDB fs db with
  | .ok (db1, _) => db1
  | .error _ => db

/-- Discriminator for aborted syncs. -/
def isErr {α : Type} : Except String α → Bool
  | .error _ => true
  | .ok _ => false

/-! Claim C1: sync idempotence. -/

/-- A notes root with one note whose modification time carries a
nonzero sub-second part, and whose content has one link line. -/
def c1Fs : List FsDir :=
  [{ name := "20231028013031",
     files := [{ name := "README.md", mtime := ⟨100, 5⟩,
                 content := "# T\n[a](../b) c" }] }]

/-- Claim C1, counterexample.  With no filesystem change between the
two runs, the second run is not a no-op: the stored mtime was truncated
to whole seconds, so `modTime.After(stored)` holds again on the second
run, `updateFile` runs again, and the note's link row is deleted and
re-inserted under a fresh AUTOINCREMENT id.  The catalog after run two
differs from the catalog after run one (the link row id changed, and a
row was deleted and inserted). -/
theorem c1_counterexample :
    runSync c1Fs (runSync c1Fs emptyDB) ≠ runSync c1Fs emptyDB ∧
    (runSync c1Fs emptyDB).links = [⟨1, "[a](../b) c", 1⟩] ∧
    (runSync c1Fs (runSync c1Fs emptyDB)).links = [⟨2, "[a](../b) c", 1⟩] := by
  refine ⟨by decide, by decide, by decide⟩

/-! Claim C2: the mtime comparison and the note-row update. -/

/-- The catalog produced by indexing one note titled `Old` at
whole-second mtime 100. -/
def c2Db : DB :=
  runSync
    [{ name := "20231028013031",
       files := [{ name := "README.md", mtime := ⟨100, 0⟩,
                   content := "# Old\n" }] }]
    emptyDB

/-- The same notes root after the note was rewritten (new title, a new
link line) and its modification time advanced to a strictly later whole
second. -/
def c2Fs : List FsDir :=
  [{ name := "20231028013031",
     files := [{ name := "README.md", mtime := ⟨200, 0⟩,
                 content := "# New\n[a](../b) c" }] }]

/-- Claim C2, the code at the failing input.  The file's mtime advanced
a full second past the stored value (both truncated and untruncated
comparison agree the file is newer) and the content changed, so by the
claim the note row would be updated.  The re-sync does take the update
branch — the link table is rewritten — but the zettel row keeps title
`Old`, empty body and mtime 100: `updateFile` executes
`UPDATE zettel SET title=$1, body=$2, mtime=$3 WHERE id=$4` with only
three bind arguments, the driver rejects the statement, and the error
is discarded. -/
theorem c2_update_is_broken :
    c2Db.zettels = [⟨1, "README.md", "Old", "", 100, "20231028013031"⟩] ∧
    (runSync c2Fs c2Db).zettels = c2Db.zettels ∧
    c2Db.links = [] ∧
    (runSync c2Fs c2Db).links = [⟨1, "[a](../b) c", 1⟩] := by
  refine ⟨by decide, by decide, by decide, by decide⟩

/-! Claim C3: directory rows versus on-disk directories. -/

/-- A notes root with one subdirectory that contains no files at all. -/
def c3Fs : List FsDir :=
  [{ name := "20231028013031", files := [] }]

/-- Claim C3, counterexample.  A new subdirectory with no markdown file
still gets a directory row: `addZettel` runs `insertDir` before it ever
looks at the directory's files.  After the sync a directory row exists
although the on-disk directory contains no `.md` file, refuting the
claimed equivalence. -/
theorem c3_counterexample :
    (runSync c3Fs emptyDB).dirs = [⟨1, "20231028013031"⟩] ∧
    (runSync c3Fs emptyDB).zettels = [] := by
  refine ⟨by decide, by decide⟩

/-! Claim C5: orphan tags. -/

/-- First sync input: one note carrying the tag `x`. -/
def c5Fs1 : List FsDir :=
  [{ name := "20231028013031",
     files := [{ name := "README.md", mtime := ⟨100, 0⟩,
                 content := "# T\n\t\t#x\n" }] }]

/-- The catalog after indexing the tagged note. -/
def c5Db1 : DB := runSync c5Fs1 emptyDB

/-- Second sync input: the same note a second later with its tag line
removed. -/
def c5Fs2 : List FsDir :=
  [{ name := "20231028013031",
     files := [{ name := "README.md", mtime := ⟨101, 0⟩,
                 content := "# T\n" }] }]

/-- Claim C5, counterexample.  Updating a note whose tag set shrank to
nothing removes the `zettel_tags` association (`updateFile` deletes
them all and re-adds none) but leaves the `tag` row in place: after the
second sync the tag table still holds `x` while no association
references it.  No step of the synchronizer deletes unreferenced tag
rows. -/
theorem c5_counterexample :
    c5Db1.tags = [⟨1, "x"⟩] ∧ c5Db1.zettelTags = [⟨1, 1⟩] ∧
    (runSync c5Fs2 c5Db1).tags = [⟨1, "x"⟩] ∧
    (runSync c5Fs2 c5Db1).zettelTags = [] := by
  refine ⟨by decide, by decide, by decide, by decide⟩

theorem insertTags_tags_mono :
    ∀ (ts : List String) (db : DB) (zid : Nat),
      db.tags <+: (insertTags db zid ts).1.tags := by
  intro ts
  induction ts with
  | nil => intro db zid; exact List.prefix_rfl
  | cons t rest ih =>
    intro db zid
    rw [insertTags]
    split
    · rename_i r hfind
      split
      · exact List.prefix_rfl
      · exact ih { db with zettelTags := db.zettelTags ++ [⟨zid, r.id⟩] } zid
    · rename_i hfind
      split
      · exact List.prefix_append _ _
      · exact (List.prefix_append db.tags [⟨db.nextTagId, t⟩]).trans
          (ih { db with
                tags := db.tags ++ [⟨db.nextTagId, t⟩],
                nextTagId := db.nextTagId + 1,
                zettelTags := db.zettelTags ++ [⟨zid, db.nextTagId⟩] } zid)

theorem insertTags_zettels :
    ∀ (ts : List String) (db : DB) (zid : Nat),
      (insertTags db zid ts).1.zettels = db.zettels := by
  intro ts
  induction ts with
  | nil => intro db zid; rfl
  | cons t rest ih =>
    intro db zid
    rw [insertTags]
    split
    · rename_i r hfind
      split
      · rfl
      · exact ih { db with zettelTags := db.zettelTags ++ [⟨zid, r.id⟩] } zid
    · rename_i hfind
      split
      · rfl
      · exact ih { db with
            tags := db.tags ++ [⟨db.nextTagId, t⟩],
            nextTagId := db.nextTagId + 1,
            zettelTags := db.zettelTags ++ [⟨zid, db.nextTagId⟩] } zid

theorem insertTags_dirs :
    ∀ (ts : List String) (db : DB) (zid : Nat),
      (insertTags db zid ts).1.dirs = db.dirs := by
  intro ts
  induction ts with
  | nil => intro db zid; rfl
  | cons t rest ih =>
    intro db zid
    rw [insertTags]
    split
    · rename_i r hfind
      split
      · rfl
      · exact ih { db with zettelTags := db.zettelTags ++ [⟨zid, r.id⟩] } zid
    · rename_i hfind
      split
      · rfl
      · exact ih { db with
            tags := db.tags ++ [⟨db.nextTagId, t⟩],
            nextTagId := db.nextTagId + 1,
            zettelTags := db.zettelTags ++ [⟨zid, db.nextTagId⟩] } zid

theorem insertLinks_fields :
    ∀ (cs : List String) (db : DB) (zid : Nat),
      (insertLinks db zid cs).tags = db.tags ∧
      (insertLinks db zid cs).zettels = db.zettels ∧
      (insertLinks db zid cs).dirs = db.dirs ∧
      (insertLinks db zid cs).zettelTags = db.zettelTags := by
  intro cs
  induction cs with
  | nil => intro db zid; exact ⟨rfl, rfl, rfl, rfl⟩
  | cons c cs ih =>
    intro db zid
    show ((insertLinks
      { db with
        links := db.links ++ [⟨db.nextLinkId, c, zid⟩],
        nextLinkId := db.nextLinkId + 1 } zid cs).tags = db.tags ∧ _)
    exact ih _ zid

theorem insertFile_tags_mono (db : DB) (z : Zettel) :
    db.tags <+: (insertFile db z).1.tags := by
  unfold insertFile
  refine List.IsPrefix.trans ?_ (insertTags_tags_mono z.tags _ db.nextZettelId)
  rw [(insertLinks_fields z.links _ db.nextZettelId).1]

theorem insertFile_dirs (db : DB) (z : Zettel) :
    (insertFile db z).1.dirs = db.dirs := by
  unfold insertFile
  rw [insertTags_dirs, (insertLinks_fields z.links _ db.nextZettelId).2.2.1]

theorem updateFile_tags_mono (db : DB) (z : Zettel) :
    db.tags <+: (updateFile db z).1.tags := by
  unfold updateFile
  cases db.zettels.find? (fun r => r.name = z.name && r.dirName = z.dirName) with
  | none => exact List.prefix_rfl
  | some r =>
    refine List.IsPrefix.trans ?_ (insertTags_tags_mono z.tags _ r.id)
    show db.tags <+:
      (insertLinks { db with links := db.links.filter fun l => !(l.zettelId = r.id) }
        r.id z.links).tags
    rw [(insertLinks_fields z.links _ r.id).1]

theorem updateFile_dirs (db : DB) (z : Zettel) :
    (updateFile db z).1.dirs = db.dirs := by
  unfold updateFile
  cases db.zettels.find? (fun r => r.name = z.name && r.dirName = z.dirName) with
  | none => rfl
  | some r =>
    rw [insertTags_dirs]
    exact (insertLinks_fields z.links _ r.id).2.2.1

theorem updateFile_zettels (db : DB) (z : Zettel) :
    (updateFile db z).1.zettels = db.zettels := by
  unfold updateFile
  cases db.zettels.find? (fun r => r.name = z.name && r.dirName = z.dirName) with
  | none => rfl
  | some r =>
    rw [insertTags_zettels]
    exact (insertLinks_fields z.links _ r.id).2.1

theorem addFilesLoop_tags_mono (dn : String) :
    ∀ (files : List FsFile) (db : DB),
      db.tags <+: (addFilesLoop dn db files).1.tags := by
  intro files
  induction files with
  | nil => intro db; exact List.prefix_rfl
  | cons f rest ih =>
    intro db
    unfold addFilesLoop
    split
    · exact ih db
    · cases hins : insertFile db (mkZettel dn f) with
      | mk db1 oerr =>
        have hmono : db.tags <+: db1.tags := by
          have := insertFile_tags_mono db (mkZettel dn f)
          rw [hins] at this
          exact this
        cases oerr with
        | some e => exact hmono
        | none => exact hmono.trans (ih db1)

theorem addFilesLoop_dirs (dn : String) :
    ∀ (files : List FsFile) (db : DB),
      (addFilesLoop dn db files).1.dirs = db.dirs := by
  intro files
  induction files with
  | nil => intro db; rfl
  | cons f rest ih =>
    intro db
    unfold addFilesLoop
    split
    · exact ih db
    · cases hins : insertFile db (mkZettel dn f) with
      | mk db1 oerr =>
        have hd : db1.dirs = db.dirs := by
          have := insertFile_dirs db (mkZettel dn f)
          rw [hins] at this
          exact this
        cases oerr with
        | some e => exact hd
        | none => rw [ih db1, hd]

theorem insertDir_tags (db : DB) (n : String) :
    (insertDir db n).1.tags = db.tags := by
  unfold insertDir
  split
  · rfl
  · rfl

theorem addZettel_tags_mono (db : DB) (d : FsDir) :
    db.tags <+: (addZettel db d).1.tags := by
  unfold addZettel
  cases hid : insertDir db d.name with
  | mk db0 oerr =>
    have ht : db0.tags = db.tags := by
      have := insertDir_tags db d.name
      rw [hid] at this
      exact this
    cases oerr with
    | some e => rw [ht]
    | none =>
      rw [← ht]
      exact addFilesLoop_tags_mono d.name d.files db0

theorem deleteFilesRows_fields :
    ∀ (rows : List ZRow) (db : DB),
      (deleteFilesRows db rows).tags = db.tags ∧
      (deleteFilesRows db rows).dirs = db.dirs ∧
      (deleteFilesRows db rows).zettelTags = db.zettelTags := by
  intro rows
  induction rows with
  | nil => intro db; exact ⟨rfl, rfl, rfl⟩
  | cons r rest ih =>
    intro db
    show ((deleteFilesRows
      { db with zettels := db.zettels.filter fun w => !(w.id = r.id) } rest).tags
        = db.tags ∧ _)
    exact ih _

theorem deleteDirsRows_tags :
    ∀ (names : List String) (db : DB),
      (deleteDirsRows db names).tags = db.tags := by
  intro names
  induction names with
  | nil => intro db; rfl
  | cons n rest ih =>
    intro db
    show (deleteDirsRows
      { db with dirs := db.dirs.filter fun w => !(w.name = n) } rest).tags = db.tags
    exact ih _

theorem processFilesLoop_tags_mono (dn : String) :
    ∀ (files : List FsFile) (db : DB) (zm : List ZRow) (db' : DB) (zm' : List ZRow),
      processFilesLoop dn db zm files = .ok (db', zm') → db.tags <+: db'.tags := by
  intro files
  induction files with
  | nil =>
    intro db zm db' zm' h
    injection h with h
    injection h with h1 _
    rw [← h1]
  | cons f rest ih =>
    intro db zm db' zm' h
    unfold processFilesLoop at h
    split at h
    · exact ih db zm db' zm' h
    · split at h
      · exact absurd h (by simp)
      · split at h
        · split at h
          · exact absurd h (by simp)
          · next db1 hins =>
            have hmono : db.tags <+: db1.tags := by
              have := insertFile_tags_mono db (mkZettel dn f)
              rw [hins] at this
              exact this
            exact hmono.trans (ih db1 zm db' zm' h)
        · split at h
          · split at h
            · exact absurd h (by simp)
            · next db1 hupd =>
              have hmono : db.tags <+: db1.tags := by
                have := updateFile_tags_mono db (mkZettel dn f)
                rw [hupd] at this
                exact this
              exact hmono.trans (ih db1 _ db' zm' h)
          · exact ih db _ db' zm' h

theorem processFiles_tags_mono (db : DB) (zm : List ZRow) (d : FsDir)
    (db' : DB) (zm' : List ZRow)
    (h : processFiles db zm d = .ok (db', zm')) : db.tags <+: db'.tags := by
  unfold processFiles at h
  split at h
  · split at h
    · exact absurd h (by simp)
    · next db1 zm1 hloop =>
      injection h with h
      injection h with h1 _
      rw [← h1, (deleteFilesRows_fields (zmDirRows zm1 d.name) db1).1]
      exact processFilesLoop_tags_mono d.name d.files db zm db1 zm1 hloop
  · exact absurd h (by simp)

theorem processZettelsLoop_tags_mono :
    ∀ (fs : List FsDir) (db : DB) (zm : List ZRow) (db' : DB)
      (zm' : List ZRow) (log : List String),
      processZettelsLoop db zm fs = .ok (db', zm', log) → db.tags <+: db'.tags := by
  intro fs
  induction fs with
  | nil =>
    intro db zm db' zm' log h
    injection h with h
    injection h with h1 _
    rw [← h1]
  | cons d rest ih =>
    intro db zm db' zm' log h
    unfold processZettelsLoop at h
    split at h
    · exact ih db zm db' zm' log h
    · split at h
      · split at h
        · exact absurd h (by simp)
        · next db1 zm1 hpf =>
          exact (processFiles_tags_mono db zm d db1 zm1 hpf).trans
            (ih db1 _ db' zm' log h)
      · split at h
        · exact absurd h (by simp)
        · next db2 zm2 log2 hrec =>
          injection h with h
          injection h with h1 _
          rw [← h1]
          exact (addZettel_tags_mono db d).trans
            (ih (addZettel db d).1 zm db2 zm2 log2 hrec)

/-- Claim C5, amended: synchronization removes tag associations but
never deletes a tag row — the tag table only ever grows (as a list, the
old table is a prefix of the new one), so tags that lose their last
association persist as orphans. -/
theorem c5_amended (fs : List FsDir) (db db' : DB) (log : List String)
    (h : updateDB fs db = .ok (db', log)) : db.tags <+: db'.tags := by
  unfold updateDB processZettels at h
  split at h
  · exact absurd h (by simp)
  · next db1 zm1 log1 hloop =>
    injection h with h
    injection h with h1 _
    rw [← h1, deleteDirsRows_tags, (deleteFilesRows_fields zm1 db1).1]
    exact processZettelsLoop_tags_mono fs db (zmOf db.zettels) db1 zm1 log1 hloop

/-- Witness: the amended C5 theorem applied to the orphan-tag scenario
of the counterexample — the tag table after the update still starts
with the (now orphaned) tag row. -/
theorem c5_amended_witness : c5Db1.tags <+: (runSync c5Fs2 c5Db1).tags :=
  c5_amended c5Fs2 c5Db1 (runSync c5Fs2 c5Db1) [] (by rfl)

/-! Claim C7: the walk's error policy. -/

/-- A catalog holding one directory with one indexed note. -/
def c7Db : DB :=
  runSync
    [{ name := "20231028013031",
       files := [{ name := "README.md", mtime := ⟨100, 0⟩,
                   content := "# T\n" }] }]
    emptyDB

/-- The same notes root after a second note file `b.md` was created in
the existing directory. -/
def c7Fs : List FsDir :=
  [{ name := "20231028013031",
     files := [{ name := "README.md", mtime := ⟨100, 0⟩, content := "# T\n" },
               { name := "b.md", mtime := ⟨100, 0⟩, content := "# B\n" }] }]

/-- Claim C7, counterexample.  Processing the single new note `b.md`
inside an existing directory fails (`processFiles` feeds the missed
lookup's zero-value `Zettel`, whose empty mtime string `isoToTime`
rejects) and that per-note failure is not logged-and-skipped: the whole
walk aborts with an error surfaced to the caller, the transaction is
rolled back, and no partial progress survives. -/
theorem c7_counterexample :
    isErr (updateDB c7Fs c7Db) = true ∧ runSync c7Fs c7Db = c7Db := by
  refine ⟨by decide, by decide⟩

theorem processZettelsLoop_all_new :
    ∀ (fs : List FsDir) (db : DB) (zm : List ZRow),
      (∀ d ∈ fs, d.isDir = true → zmHasDir zm d.name = false) →
      ∃ t, processZettelsLoop db zm fs = .ok t := by
  intro fs
  induction fs with
  | nil => intro db zm _; exact ⟨(db, zm, []), rfl⟩
  | cons d rest ih =>
    intro db zm h
    unfold processZettelsLoop
    by_cases hd : d.isDir = true
    · rw [if_neg (by simp [hd])]
      rw [if_neg (by simp [h d (by simp) hd])]
      obtain ⟨⟨t1, t2, t3⟩, ht⟩ :=
        ih (addZettel db d).1 zm (fun x hx hdir => h x (List.mem_cons_of_mem _ hx) hdir)
      rw [ht]
      exact ⟨(t1, t2, (addZettel db d).2.toList ++ t3), rfl⟩
    · rw [if_pos (by simpa using hd)]
      exact ih db zm (fun x hx hdir => h x (List.mem_cons_of_mem _ hx) hdir)

/-- Claim C7, amended.  Only failures inside `processFiles` — the
reconciliation of a directory that already has catalog rows — abort the
walk (together with transaction setup/commit and root-read failures,
which are outside this embedding).  Failures inserting a *new*
directory (`addZettel`, including its per-note insert failures) and
failures during the deletion sweep are logged and the walk continues:
whenever no directory of the root has catalog rows, the sync cannot
abort, whatever errors its inserts produce. -/
theorem c7_amended (fs : List FsDir) (db : DB)
    (h : ∀ d ∈ fs, d.isDir = true → zmHasDir (zmOf db.zettels) d.name = false) :
    isErr (updateDB fs db) = false := by
  obtain ⟨t, ht⟩ := processZettelsLoop_all_new fs db (zmOf db.zettels) h
  unfold updateDB processZettels
  rw [ht]
  rfl

/-- Witness: a root listing the same directory name twice (so the
second `insertDir` fails its UNIQUE constraint and is merely logged)
still synchronizes without a surfaced error. -/
theorem c7_amended_witness :
    isErr (updateDB [{ name := "d", files := [] },
      { name := "d", files := [] }] emptyDB) = false :=
  c7_amended _ emptyDB (by decide)

/-! Claim C3 (amended): which directory rows a fresh sync creates. -/

theorem insertDir_fresh (db : DB) (n : String)
    (h : db.dirs.any (fun r => r.name = n) = false) :
    insertDir db n = ({ db with
      dirs := db.dirs ++ [⟨db.nextDirId, n⟩],
      nextDirId := db.nextDirId + 1 }, none) := by
  unfold insertDir
  rw [if_neg (by simp [h])]

theorem addZettel_dirs_fresh (db : DB) (d : FsDir)
    (h : db.dirs.any (fun r => r.name = d.name) = false) :
    (addZettel db d).1.dirs = db.dirs ++ [⟨db.nextDirId, d.name⟩] := by
  unfold addZettel
  rw [insertDir_fresh db d.name h]
  rw [addFilesLoop_dirs]

theorem processZettelsLoop_fresh :
    ∀ (fs : List FsDir) (db : DB),
      (∀ d ∈ fs, d.isDir = true → db.dirs.any (fun r => r.name = d.name) = false) →
      (((fs.filter fun d => d.isDir).map (·.name)).Nodup) →
      ∃ db' log, processZettelsLoop db [] fs = .ok (db', [], log) ∧
        db'.dirs.map (·.name)
          = db.dirs.map (·.name) ++ (fs.filter fun d => d.isDir).map (·.name) := by
  intro fs
  induction fs with
  | nil => intro db _ _; exact ⟨db, [], rfl, by simp⟩
  | cons d rest ih =>
    intro db h hnd
    unfold processZettelsLoop
    by_cases hd : d.isDir = true
    · rw [if_neg (by simp [hd])]
      rw [show zmHasDir [] d.name = false from rfl]
      rw [if_neg (by simp)]
      have hdirs1 : (addZettel db d).1.dirs = db.dirs ++ [⟨db.nextDirId, d.name⟩] :=
        addZettel_dirs_fresh db d (h d (by simp) hd)
      have hfilter : (d :: rest).filter (fun x => x.isDir) = d :: rest.filter (fun x => x.isDir) := by
        rw [List.filter_cons, if_pos (by simp [hd])]
      have hnd' : ((rest.filter fun x => x.isDir).map (·.name)).Nodup := by
        rw [hfilter] at hnd
        exact (List.nodup_cons.1 (by simpa using hnd)).2
      have hmem : ¬ d.name ∈ (rest.filter fun x => x.isDir).map (·.name) := by
        rw [hfilter] at hnd
        exact (List.nodup_cons.1 (by simpa using hnd)).1
      have hfresh : ∀ x ∈ rest, x.isDir = true →
          (addZettel db d).1.dirs.any (fun r => r.name = x.name) = false := by
        intro x hx hxdir
        rw [hdirs1]
        have h1 := h x (List.mem_cons_of_mem _ hx) hxdir
        simp only [List.any_append, List.any_cons, List.any_nil]
        simp only [h1]
        simp only [Bool.false_or, Bool.or_false]
        by_contra hc
        apply hmem
        have : d.name = x.name := by
          by_contra hne
          apply hc
          simp [hne]
        rw [this]
        exact List.mem_map_of_mem _ (List.mem_filter.2 ⟨hx, by simp [hxdir]⟩)
      obtain ⟨db2, log2, hrec, hnames⟩ := ih (addZettel db d).1 hfresh hnd'
      rw [hrec]
      refine ⟨db2, (addZettel db d).2.toList ++ log2, rfl, ?_⟩
      rw [hnames, hdirs1, hfilter]
      simp
    · rw [if_pos (by simpa using hd)]
      have hfilter : (d :: rest).filter (fun x => x.isDir) = rest.filter (fun x => x.isDir) := by
        rw [List.filter_cons, if_neg (by simp [hd])]
      obtain ⟨db2, log2, hrec, hnames⟩ :=
        ih db (fun x hx hxdir => h x (List.mem_cons_of_mem _ hx) hxdir)
          (by rw [hfilter] at hnd; exact hnd)
      exact ⟨db2, log2, hrec, by rw [hnames, hfilter]⟩

/-- Claim C3, amended.  A fresh synchronization (empty catalog) inserts
one directory row for every on-disk subdirectory of the notes root —
whether or not the subdirectory contains any markdown file —, because
`addZettel` runs `insertDir` before scanning the directory's files.
Afterwards the directory rows are exactly the on-disk subdirectories,
not just those with notes. -/
theorem c3_amended (fs : List FsDir) (db' : DB) (log : List String)
    (hnd : (((fs.filter fun d => d.isDir).map (·.name)).Nodup))
    (h : updateDB fs emptyDB = .ok (db', log)) :
    db'.dirs.map (·.name) = (fs.filter fun d => d.isDir).map (·.name) := by
  obtain ⟨db2, log2, hloop, hnames⟩ :=
    processZettelsLoop_fresh fs emptyDB (by intro d _ _; rfl) hnd
  unfold updateDB processZettels at h
  rw [show zmOf emptyDB.zettels = [] from rfl] at h
  rw [hloop] at h
  injection h with h
  injection h with h1 _
  rw [← h1]
  show db2.dirs.map (·.name) = _
  rw [hnames]
  rfl

/-! Claim C1 (amended): idempotence for whole-second modification
times.  The development characterizes a fresh sync's rows and proves
the second run is the identity. -/

/-- Catalog wellformedness maintained by the synchronizer: every tag
association points below the zettel id counter, tag ids sit below the
tag id counter, and tag ids are pairwise distinct. -/
def SyncWF (db : DB) : Prop :=
  (∀ a ∈ db.zettelTags, a.zettelId < db.nextZettelId) ∧
  (∀ r ∈ db.tags, r.id < db.nextTagId) ∧
  ((db.tags.map (·.id)).Nodup)

theorem insertLinks_counters :
    ∀ (cs : List String) (db : DB) (zid : Nat),
      (insertLinks db zid cs).nextZettelId = db.nextZettelId ∧
      (insertLinks db zid cs).nextTagId = db.nextTagId := by
  intro cs
  induction cs with
  | nil => intro db zid; exact ⟨rfl, rfl⟩
  | cons c cs ih =>
    intro db zid
    show ((insertLinks
      { db with
        links := db.links ++ [⟨db.nextLinkId, c, zid⟩],
        nextLinkId := db.nextLinkId + 1 } zid cs).nextZettelId = db.nextZettelId ∧ _)
    exact ih _ zid

theorem insertTags_ok :
    ∀ (ts : List String) (db : DB) (zid : Nat),
      ts.Nodup →
      (∀ r ∈ db.tags, r.id < db.nextTagId) →
      ((db.tags.map (·.id)).Nodup) →
      (∀ a ∈ db.zettelTags, a.zettelId = zid →
        ∃ r ∈ db.tags, r.id = a.tagId ∧ ¬ r.name ∈ ts) →
      (insertTags db zid ts).2 = none ∧
      (∀ r ∈ (insertTags db zid ts).1.tags,
        r.id < (insertTags db zid ts).1.nextTagId) ∧
      (((insertTags db zid ts).1.tags.map (·.id)).Nodup) ∧
      (∀ a ∈ (insertTags db zid ts).1.zettelTags,
        a ∈ db.zettelTags ∨ a.zettelId = zid) ∧
      (insertTags db zid ts).1.nextZettelId = db.nextZettelId := by
  intro ts
  induction ts with
  | nil =>
    intro db zid _ hw2 hw3 _
    exact ⟨rfl, hw2, hw3, fun a ha => Or.inl ha, rfl⟩
  | cons t rest ih =>
    intro db zid hnod hw2 hw3 hpre
    obtain ⟨hnmem, hnod'⟩ := List.nodup_cons.1 hnod
    rw [insertTags]
    split
    · rename_i r hfind
      have hrmem : r ∈ db.tags := List.mem_of_find?_eq_some hfind
      have hrname : r.name = t := by
        have := List.find?_some hfind
        simpa using this
      have hany : db.zettelTags.any
          (fun a => a.zettelId = zid && a.tagId = r.id) = false := by
        rw [List.any_eq_false]
        intro a ha hcontra
        simp only [Bool.and_eq_true, decide_eq_true_eq] at hcontra
        obtain ⟨r', hr'mem, hr'id, hr'name⟩ := hpre a ha hcontra.1
        have : r' = r :=
          List.inj_on_of_nodup_map hw3 hr'mem hrmem (by rw [hr'id, hcontra.2])
        apply hr'name
        rw [this, hrname]
        exact List.mem_cons_self t rest
      rw [hany]
      simp only [Bool.false_eq_true, if_false]
      have hrec := ih { db with zettelTags := db.zettelTags ++ [⟨zid, r.id⟩] } zid
        hnod' hw2 hw3 ?_
      · refine ⟨hrec.1, hrec.2.1, hrec.2.2.1, ?_, hrec.2.2.2.2⟩
        intro a ha
        rcases hrec.2.2.2.1 a ha with h1 | h1
        · rcases List.mem_append.1 h1 with h2 | h2
          · exact Or.inl h2
          · right
            rw [List.mem_singleton.1 h2]
        · exact Or.inr h1
      · intro a ha hzid
        rcases List.mem_append.1 ha with h1 | h1
        · obtain ⟨r', hr'mem, hr'id, hr'name⟩ := hpre a h1 hzid
          exact ⟨r', hr'mem, hr'id,
            fun hc => hr'name (List.mem_cons_of_mem _ hc)⟩
        · rw [List.mem_singleton.1 h1]
          exact ⟨r, hrmem, rfl, by rw [hrname]; exact hnmem⟩
    · rename_i hfind
      have hany : db.zettelTags.any
          (fun a => a.zettelId = zid && a.tagId = db.nextTagId) = false := by
        rw [List.any_eq_false]
        intro a ha hcontra
        simp only [Bool.and_eq_true, decide_eq_true_eq] at hcontra
        obtain ⟨r', hr'mem, hr'id, _⟩ := hpre a ha hcontra.1
        have := hw2 r' hr'mem
        rw [hr'id, hcontra.2] at this
        exact absurd this (lt_irrefl _)
      rw [hany]
      simp only [Bool.false_eq_true, if_false]
      have hw2' : ∀ r ∈ db.tags ++ [⟨db.nextTagId, t⟩],
          r.id < db.nextTagId + 1 := by
        intro r hr
        rcases List.mem_append.1 hr with h1 | h1
        · exact Nat.lt_succ_of_lt (hw2 r h1)
        · rw [List.mem_singleton.1 h1]
          exact Nat.lt_succ_self _
      have hw3' : (((db.tags ++ [(⟨db.nextTagId, t⟩ : TagRow)]).map (·.id)).Nodup) := by
        rw [List.map_append]
        rw [List.nodup_append]
        refine ⟨hw3, by simp, ?_⟩
        intro x hx hy
        simp only [List.map_cons, List.map_nil, List.mem_singleton] at hy
        subst hy
        obtain ⟨r', hr'mem, hr'eq⟩ := List.mem_map.1 hx
        have := hw2 r' hr'mem
        rw [hr'eq] at this
        exact absurd this (lt_irrefl _)
      have hrec := ih
        { db with
          tags := db.tags ++ [⟨db.nextTagId, t⟩],
          nextTagId := db.nextTagId + 1,
          zettelTags := db.zettelTags ++ [⟨zid, db.nextTagId⟩] } zid
        hnod' hw2' hw3' ?_
      · refine ⟨hrec.1, hrec.2.1, hrec.2.2.1, ?_, hrec.2.2.2.2⟩
        intro a ha
        rcases hrec.2.2.2.1 a ha with h1 | h1
        · rcases List.mem_append.1 h1 with h2 | h2
          · exact Or.inl h2
          · right
            rw [List.mem_singleton.1 h2]
        · exact Or.inr h1
      · intro a ha hzid
        rcases List.mem_append.1 ha with h1 | h1
        · obtain ⟨r', hr'mem, hr'id, hr'name⟩ := hpre a h1 hzid
          exact ⟨r', List.mem_append_left _ hr'mem, hr'id,
            fun hc => hr'name (List.mem_cons_of_mem _ hc)⟩
        · rw [List.mem_singleton.1 h1]
          refine ⟨⟨db.nextTagId, t⟩, List.mem_append_right _ (by simp), rfl, ?_⟩
          exact hnmem

/-- `insertFile` under a duplicate-free tag list and a wellformed
catalog: it succeeds, appends exactly one zettel row (carrying the
parsed fields and the formatted mtime), bumps the zettel id counter,
and preserves wellformedness. -/
theorem insertFile_ok (db : DB) (z : Zettel)
    (hnod : z.tags.Nodup) (hW : SyncWF db) :
    (insertFile db z).2 = none ∧
    (insertFile db z).1.zettels = db.zettels ++
      [⟨db.nextZettelId, z.name, z.title, z.body, z.mtime, z.dirName⟩] ∧
    (insertFile db z).1.nextZettelId = db.nextZettelId + 1 ∧
    (insertFile db z).1.dirs = db.dirs ∧
    SyncWF (insertFile db z).1 := by
  obtain ⟨hw1, hw2, hw3⟩ := hW
  have hlinks := insertLinks_fields z.links
    { db with
      zettels := db.zettels ++
        [⟨db.nextZettelId, z.name, z.title, z.body, z.mtime, z.dirName⟩],
      nextZettelId := db.nextZettelId + 1 } db.nextZettelId
  have hcount := insertLinks_counters z.links
    { db with
      zettels := db.zettels ++
        [⟨db.nextZettelId, z.name, z.title, z.body, z.mtime, z.dirName⟩],
      nextZettelId := db.nextZettelId + 1 } db.nextZettelId
  set db2 := insertLinks
    { db with
      zettels := db.zettels ++
        [⟨db.nextZettelId, z.name, z.title, z.body, z.mtime, z.dirName⟩],
      nextZettelId := db.nextZettelId + 1 } db.nextZettelId z.links with hdb2
  have htags := insertTags_ok z.tags db2 db.nextZettelId hnod
    (by rw [hlinks.1]; rw [hcount.2]; exact hw2)
    (by rw [hlinks.1]; exact hw3)
    (by
      rw [hlinks.2.2.2]
      intro a ha hzid
      have := hw1 a ha
      rw [hzid] at this
      exact absurd this (lt_irrefl _))
  have hzeq : (insertFile db z).1 = (insertTags db2 db.nextZettelId z.tags).1 := rfl
  have herr : (insertFile db z).2 = (insertTags db2 db.nextZettelId z.tags).2 := rfl
  refine ⟨by rw [herr]; exact htags.1, ?_, ?_, ?_, ?_, ?_, ?_⟩
  · rw [hzeq, insertTags_zettels, hlinks.2.1]
  · rw [hzeq, htags.2.2.2.2, hcount.1]
  · rw [hzeq, insertTags_dirs, hlinks.2.2.1]
  · -- SyncWF conjunct 1
    rw [hzeq]
    intro a ha
    rw [htags.2.2.2.2, hcount.1]
    rcases htags.2.2.2.1 a ha with h1 | h1
    · rw [hlinks.2.2.2] at h1
      exact Nat.lt_succ_of_lt (hw1 a h1)
    · rw [h1]
      exact Nat.lt_succ_self _
  · rw [hzeq]
    exact htags.2.1
  · rw [hzeq]
    exact htags.2.2.1

/-- Witness for the amended C3 theorem: one empty directory and one
directory with a note both get their directory row. -/
theorem c3_amended_witness :
    (runSync [{ name := "a", files := [] },
      { name := "b", files := [{ name := "n.md", mtime := ⟨5, 0⟩, content := "# x" }] }]
      emptyDB).dirs.map (·.name) = ["a", "b"] := by
  have h := c3_amended
    [{ name := "a", files := [] },
     { name := "b", files := [{ name := "n.md", mtime := ⟨5, 0⟩, content := "# x" }] }]
    (runSync [{ name := "a", files := [] },
      { name := "b", files := [{ name := "n.md", mtime := ⟨5, 0⟩, content := "# x" }] }]
      emptyDB)
    [] (by decide) (by rfl)
  rw [h]
  rfl

/-- The zettel rows a fresh sync writes for one directory: one row per
markdown file, in listing order, carrying the file's name, the
directory's name and the truncated modification time. -/
def DirBlock (d : FsDir) (b : List ZRow) : Prop :=
  List.Forall₂
    (fun f r => r.name = f.name ∧ r.dirName = d.name ∧ r.mtime = f.mtime.sec)
    (d.files.filter isMdFile) b

/-- The zettel rows a fresh sync writes for a whole root listing: the
concatenation of the per-directory blocks of its directory entries. -/
inductive Blocks : List FsDir → List ZRow → Prop
  | nil : Blocks [] []
  | skip {d : FsDir} {fs : List FsDir} {B : List ZRow} :
      d.isDir = false → Blocks fs B → Blocks (d :: fs) B
  | dir {d : FsDir} {fs : List FsDir} {b B : List ZRow} :
      d.isDir = true → DirBlock d b → Blocks fs B → Blocks (d :: fs) (b ++ B)

theorem forallTwoRows (dn : String) :
    ∀ {fl : List FsFile} {b : List ZRow},
      List.Forall₂
        (fun f r => r.name = f.name ∧ r.dirName = dn ∧ r.mtime = f.mtime.sec) fl b →
      b.map (·.name) = fl.map (·.name) ∧ ∀ r ∈ b, r.dirName = dn := by
  intro fl b h
  induction h with
  | nil => exact ⟨rfl, by intro r hr; exact absurd hr (List.not_mem_nil r)⟩
  | @cons f r fl' b' hfr htail ih =>
    refine ⟨by simp only [List.map_cons, ih.1, hfr.1], ?_⟩
    intro w hw
    rcases List.mem_cons.1 hw with h1 | h1
    · rw [h1]; exact hfr.2.1
    · exact ih.2 w h1

theorem blocks_dirnames :
    ∀ {fs : List FsDir} {B : List ZRow}, Blocks fs B →
      ∀ r ∈ B, ∃ d ∈ fs, d.isDir = true ∧ r.dirName = d.name := by
  intro fs B h
  induction h with
  | nil => intro r hr; exact absurd hr (List.not_mem_nil r)
  | @skip d fs B hd htail ih =>
    intro r hr
    obtain ⟨d', hd', hdir, hname⟩ := ih r hr
    exact ⟨d', List.mem_cons_of_mem _ hd', hdir, hname⟩
  | @dir d fs b B hd hb htail ih =>
    intro r hr
    rcases List.mem_append.1 hr with h1 | h1
    · have hrows := forallTwoRows d.name
        (show List.Forall₂ _ (d.files.filter isMdFile) b from hb)
      exact ⟨d, List.mem_cons_self d fs, hd, hrows.2 r h1⟩
    · obtain ⟨d', hd', hdir, hname⟩ := ih r h1
      exact ⟨d', List.mem_cons_of_mem _ hd', hdir, hname⟩

theorem blocks_pairwise :
    ∀ {fs : List FsDir} {B : List ZRow}, Blocks fs B →
      (((fs.filter fun x => x.isDir).map (·.name)).Nodup) →
      (∀ d ∈ fs, d.isDir = true → ((d.files.filter isMdFile).map (·.name)).Nodup) →
      List.Pairwise (fun a c => ¬(a.dirName = c.dirName ∧ a.name = c.name)) B := by
  intro fs B h
  induction h with
  | nil => intro _ _; exact List.Pairwise.nil
  | @skip d fs B hd htail ih =>
    intro hnd hkeys
    have hfilter : (d :: fs).filter (fun x => x.isDir) = fs.filter (fun x => x.isDir) := by
      rw [List.filter_cons, if_neg (by simp [hd])]
    rw [hfilter] at hnd
    exact ih hnd (fun x hx hxd => hkeys x (List.mem_cons_of_mem _ hx) hxd)
  | @dir d fs b B hd hb htail ih =>
    intro hnd hkeys
    have hfilter : (d :: fs).filter (fun x => x.isDir) = d :: fs.filter (fun x => x.isDir) := by
      rw [List.filter_cons, if_pos (by simp [hd])]
    rw [hfilter, List.map_cons] at hnd
    have hnd0 := List.nodup_cons.1 hnd
    have hrows := forallTwoRows d.name
      (show List.Forall₂ _ (d.files.filter isMdFile) b from hb)
    rw [List.pairwise_append]
    refine ⟨?_, ih hnd0.2 (fun x hx hxd => hkeys x (List.mem_cons_of_mem _ hx) hxd), ?_⟩
    · have hbn : (b.map (·.name)).Nodup := by
        rw [hrows.1]
        exact hkeys d (by simp) hd
      exact (List.pairwise_map.1 hbn).imp (fun h hc => h hc.2)
    · intro a ha c hc
      obtain ⟨d', hd'mem, hd'dir, hcd⟩ := blocks_dirnames htail c hc
      intro hkey
      apply hnd0.1
      have h1 : a.dirName = d.name := hrows.2 a ha
      have h2 : d.name = d'.name := by rw [← h1, hkey.1, hcd]
      rw [h2]
      exact List.mem_map_of_mem _ (List.mem_filter.2 ⟨hd'mem, by simp [hd'dir]⟩)

theorem zmOf_go :
    ∀ (zs acc : List ZRow),
      (∀ a ∈ acc, ∀ z ∈ zs, ¬(a.dirName = z.dirName ∧ a.name = z.name)) →
      List.Pairwise (fun a c => ¬(a.dirName = c.dirName ∧ a.name = c.name)) zs →
      zs.foldl
        (fun m z => m.filter (fun w => !(w.dirName = z.dirName && w.name = z.name)) ++ [z])
        acc = acc ++ zs := by
  intro zs
  induction zs with
  | nil => intro acc _ _; simp
  | cons z rest ih =>
    intro acc hdisj hpw
    rw [List.foldl_cons]
    have hfilter : acc.filter (fun w => !(w.dirName = z.dirName && w.name = z.name)) = acc := by
      apply List.filter_eq_self.2
      intro a ha
      have h2 := hdisj a ha z (List.mem_cons_self z rest)
      by_cases hda : a.dirName = z.dirName
      · by_cases hna : a.name = z.name
        · exact absurd ⟨hda, hna⟩ h2
        · simp [hna]
      · simp [hda]
    rw [hfilter]
    rw [ih (acc ++ [z]) ?_ (List.pairwise_cons.1 hpw).2]
    · simp
    · intro a ha w hw
      rcases List.mem_append.1 ha with h1 | h1
      · exact hdisj a h1 w (List.mem_cons_of_mem _ hw)
      · rw [List.mem_singleton.1 h1]
        exact (List.pairwise_cons.1 hpw).1 w hw

theorem zmOf_id (B : List ZRow)
    (hpw : List.Pairwise (fun a c => ¬(a.dirName = c.dirName ∧ a.name = c.name)) B) :
    zmOf B = B := by
  unfold zmOf
  rw [zmOf_go B [] (by intro a ha; exact absurd ha (List.not_mem_nil a)) hpw]
  simp

theorem addFilesLoop_ok :
    ∀ (files : List FsFile) (db : DB) (dn : String),
      (∀ f ∈ files, (mkZettel dn f).tags.Nodup) →
      SyncWF db →
      ∃ b, (addFilesLoop dn db files).2 = none ∧
        (addFilesLoop dn db files).1.zettels = db.zettels ++ b ∧
        List.Forall₂
          (fun f r => r.name = f.name ∧ r.dirName = dn ∧ r.mtime = f.mtime.sec)
          (files.filter isMdFile) b ∧
        SyncWF (addFilesLoop dn db files).1 := by
  intro files
  induction files with
  | nil =>
    intro db dn _ hW
    exact ⟨[], rfl, by simp [addFilesLoop], List.Forall₂.nil, hW⟩
  | cons f rest ih =>
    intro db dn htags hW
    by_cases hmd : isMdFile f = true
    · have hmd' := hmd
      unfold isMdFile at hmd'
      rw [Bool.and_eq_true] at hmd'
      have hdir : f.isDir = false := by simpa using hmd'.1
      have hsuf : goHasSuffix f.name ".md" = true := hmd'.2
      have hc : (!goHasSuffix f.name ".md" || f.isDir) = false := by
        rw [hsuf, hdir]
        rfl
      have hins := insertFile_ok db (mkZettel dn f) (htags f (by simp)) hW
      rcases hif : insertFile db (mkZettel dn f) with ⟨db1, o⟩
      rw [hif] at hins
      have ho : o = none := hins.1
      subst ho
      have hstep : addFilesLoop dn db (f :: rest) = addFilesLoop dn db1 rest := by
        rw [addFilesLoop]
        rw [if_neg (by simp [hc])]
        rw [hif]
      have hW1 : SyncWF db1 := hins.2.2.2.2
      have hz1 : db1.zettels = db.zettels ++
          [⟨db.nextZettelId, (mkZettel dn f).name, (mkZettel dn f).title,
            (mkZettel dn f).body, (mkZettel dn f).mtime, (mkZettel dn f).dirName⟩] :=
        hins.2.1
      obtain ⟨b', h1, h2, h3, h4⟩ :=
        ih db1 dn (fun x hx => htags x (List.mem_cons_of_mem _ hx)) hW1
      refine ⟨⟨db.nextZettelId, (mkZettel dn f).name, (mkZettel dn f).title,
          (mkZettel dn f).body, (mkZettel dn f).mtime, (mkZettel dn f).dirName⟩ :: b',
        ?_, ?_, ?_, ?_⟩
      · rw [hstep]; exact h1
      · rw [hstep, h2, hz1]
        simp
      · rw [List.filter_cons, if_pos hmd]
        exact List.Forall₂.cons ⟨rfl, rfl, rfl⟩ h3
      · rw [hstep]; exact h4
    · have hmd' : isMdFile f = false := by simpa using hmd
      have hc : (!goHasSuffix f.name ".md" || f.isDir) = true := by
        cases hdir : f.isDir with
        | false =>
          have hsuf : goHasSuffix f.name ".md" = false := by
            unfold isMdFile at hmd'
            rw [hdir] at hmd'
            simpa using hmd'
          rw [hsuf]
          rfl
        | true => simp
      have hstep : addFilesLoop dn db (f :: rest) = addFilesLoop dn db rest := by
        rw [addFilesLoop]
        rw [if_pos hc]
      obtain ⟨b, h1, h2, h3, h4⟩ :=
        ih db dn (fun x hx => htags x (List.mem_cons_of_mem _ hx)) hW
      refine ⟨b, ?_, ?_, ?_, ?_⟩
      · rw [hstep]; exact h1
      · rw [hstep]; exact h2
      · rw [List.filter_cons, if_neg (by simp [hmd'])]
        exact h3
      · rw [hstep]; exact h4

theorem addZettel_ok (db : DB) (d : FsDir)
    (hfresh : db.dirs.any (fun r => r.name = d.name) = false)
    (htags : ∀ f ∈ d.files, (mkZettel d.name f).tags.Nodup)
    (hW : SyncWF db) :
    ∃ b, (addZettel db d).2 = none ∧
      (addZettel db d).1.zettels = db.zettels ++ b ∧
      DirBlock d b ∧
      SyncWF (addZettel db d).1 := by
  unfold addZettel
  rw [insertDir_fresh db d.name hfresh]
  have hW' : SyncWF { db with
      dirs := db.dirs ++ [⟨db.nextDirId, d.name⟩],
      nextDirId := db.nextDirId + 1 } := hW
  obtain ⟨b, h1, h2, h3, h4⟩ := addFilesLoop_ok d.files
    { db with
      dirs := db.dirs ++ [⟨db.nextDirId, d.name⟩],
      nextDirId := db.nextDirId + 1 } d.name htags hW'
  exact ⟨b, h1, h2, h3, h4⟩

theorem processZettelsLoop_fresh_rows :
    ∀ (fs : List FsDir) (db : DB),
      (∀ d ∈ fs, d.isDir = true → db.dirs.any (fun r => r.name = d.name) = false) →
      (((fs.filter fun x => x.isDir).map (·.name)).Nodup) →
      (∀ d ∈ fs, ∀ f ∈ d.files, (mkZettel d.name f).tags.Nodup) →
      SyncWF db →
      ∃ db' log B, processZettelsLoop db [] fs = .ok (db', [], log) ∧
        db'.zettels = db.zettels ++ B ∧
        Blocks fs B ∧
        db'.dirs.map (·.name)
          = db.dirs.map (·.name) ++ (fs.filter fun x => x.isDir).map (·.name) := by
  intro fs
  induction fs with
  | nil =>
    intro db _ _ _ _
    exact ⟨db, [], [], rfl, by simp, Blocks.nil, by simp⟩
  | cons d rest ih =>
    intro db h hnd htags hW
    unfold processZettelsLoop
    by_cases hd : d.isDir = true
    · rw [if_neg (by simp [hd])]
      rw [show zmHasDir [] d.name = false from rfl]
      rw [if_neg (by simp)]
      obtain ⟨b, ha1, ha2, ha3, ha4⟩ :=
        addZettel_ok db d (h d (by simp) hd) (htags d (by simp)) hW
      have hdirs1 : (addZettel db d).1.dirs = db.dirs ++ [⟨db.nextDirId, d.name⟩] :=
        addZettel_dirs_fresh db d (h d (by simp) hd)
      have hfilter : (d :: rest).filter (fun x => x.isDir)
          = d :: rest.filter (fun x => x.isDir) := by
        rw [List.filter_cons, if_pos (by simp [hd])]
      have hnd' : ((rest.filter fun x => x.isDir).map (·.name)).Nodup := by
        rw [hfilter] at hnd
        exact (List.nodup_cons.1 (by simpa using hnd)).2
      have hmem : ¬ d.name ∈ (rest.filter fun x => x.isDir).map (·.name) := by
        rw [hfilter] at hnd
        exact (List.nodup_cons.1 (by simpa using hnd)).1
      have hfresh : ∀ x ∈ rest, x.isDir = true →
          (addZettel db d).1.dirs.any (fun r => r.name = x.name) = false := by
        intro x hx hxdir
        rw [hdirs1]
        have h1 := h x (List.mem_cons_of_mem _ hx) hxdir
        simp only [List.any_append, List.any_cons, List.any_nil]
        simp only [h1]
        simp only [Bool.false_or, Bool.or_false]
        by_contra hc
        apply hmem
        have : d.name = x.name := by
          by_contra hne
          apply hc
          simp [hne]
        rw [this]
        exact List.mem_map_of_mem _ (List.mem_filter.2 ⟨hx, by simp [hxdir]⟩)
      obtain ⟨db2, log2, B2, hrec, hz2, hB2, hdirs2⟩ :=
        ih (addZettel db d).1 hfresh hnd'
          (fun x hx f hf => htags x (List.mem_cons_of_mem _ hx) f hf) ha4
      rw [hrec]
      refine ⟨db2, (addZettel db d).2.toList ++ log2, b ++ B2, rfl, ?_, ?_, ?_⟩
      · rw [hz2, ha2, List.append_assoc]
      · exact Blocks.dir hd ha3 hB2
      · rw [hdirs2, hdirs1, hfilter]
        simp
    · rw [if_pos (by simpa using hd)]
      have hfilter : (d :: rest).filter (fun x => x.isDir)
          = rest.filter (fun x => x.isDir) := by
        rw [List.filter_cons, if_neg (by simp [hd])]
      obtain ⟨db2, log2, B2, hrec, hz2, hB2, hdirs2⟩ :=
        ih db (fun x hx => h x (List.mem_cons_of_mem _ hx))
          (by rw [hfilter] at hnd; exact hnd)
          (fun x hx => htags x (List.mem_cons_of_mem _ hx)) hW
      refine ⟨db2, log2, B2, hrec, hz2, Blocks.skip (by simpa using hd) hB2, ?_⟩
      rw [hdirs2, hfilter]

theorem processFilesLoop_noop (dn : String) :
    ∀ (files : List FsFile) (db : DB) (b B2 : List ZRow),
      List.Forall₂
        (fun f r => r.name = f.name ∧ r.dirName = dn ∧ r.mtime = f.mtime.sec)
        (files.filter isMdFile) b →
      (((files.filter isMdFile).map (·.name)).Nodup) →
      (∀ f ∈ files, f.mtime.nsec = 0) →
      (∀ r ∈ B2, ¬ r.dirName = dn) →
      processFilesLoop dn db (b ++ B2) files = .ok (db, B2) := by
  intro files
  induction files with
  | nil =>
    intro db b B2 hb _ _ _
    cases hb
    rfl
  | cons f rest ih =>
    intro db b B2 hb hnd hns hB2
    by_cases hmd : isMdFile f = true
    · have hmd' := hmd
      unfold isMdFile at hmd'
      rw [Bool.and_eq_true] at hmd'
      have hdir : f.isDir = false := by simpa using hmd'.1
      have hsuf : goHasSuffix f.name ".md" = true := hmd'.2
      have hc2 : (f.isDir || !goHasSuffix f.name ".md") = false := by
        rw [hsuf, hdir]
        rfl
      rw [List.filter_cons, if_pos hmd] at hb hnd
      cases hb with
      | @cons _ r _ b' hfr htail =>
        simp only [List.map_cons] at hnd
        obtain ⟨hfn, hnd'⟩ := List.nodup_cons.1 hnd
        have hbn := (forallTwoRows dn htail).1
        have hlook : zmLookup ((r :: b') ++ B2) dn f.name = some r := by
          unfold zmLookup
          rw [List.cons_append]
          rw [List.find?_cons_of_pos _ (by simp [hfr.1, hfr.2.1])]
        have haft : f.mtime.after ⟨r.mtime, 0⟩ = false := by
          rw [hfr.2.2]
          have hnsf : f.mtime.nsec = 0 := hns f (by simp)
          simp [GoTime.after, hnsf]
        have herase : zmEraseFile ((r :: b') ++ B2) dn f.name = b' ++ B2 := by
          unfold zmEraseFile
          rw [List.cons_append, List.filter_cons,
            if_neg (by simp [hfr.1, hfr.2.1]), List.filter_append]
          rw [List.filter_eq_self.2 ?hb1, List.filter_eq_self.2 ?hB1]
          case hb1 =>
            intro a ha
            have hname : a.name ≠ f.name := by
              intro hceq
              apply hfn
              rw [← hbn]
              rw [← hceq]
              exact List.mem_map_of_mem _ ha
            simp [hname]
          case hB1 =>
            intro a ha
            simp [hB2 a ha]
        rw [processFilesLoop]
        rw [if_neg (by simp [hc2])]
        rw [hlook]
        simp only [Option.map_some', isoToTimeZ, isoToTime]
        rw [if_neg (by simp [haft])]
        rw [herase]
        exact ih db b' B2 htail hnd' (fun x hx => hns x (List.mem_cons_of_mem _ hx)) hB2
    · have hmd' : isMdFile f = false := by simpa using hmd
      have hc2 : (f.isDir || !goHasSuffix f.name ".md") = true := by
        cases hdir : f.isDir with
        | false =>
          have hsuf : goHasSuffix f.name ".md" = false := by
            unfold isMdFile at hmd'
            rw [hdir] at hmd'
            simpa using hmd'
          rw [hsuf]
          rfl
        | true => simp
      rw [List.filter_cons, if_neg (by simp [hmd'])] at hb hnd
      rw [processFilesLoop]
      rw [if_pos hc2]
      exact ih db b B2 hb hnd (fun x hx => hns x (List.mem_cons_of_mem _ hx)) hB2

theorem processFiles_noop (db : DB) (d : FsDir) (b B2 : List ZRow)
    (hb : DirBlock d b) (hne : b ≠ [])
    (hnd : ((d.files.filter isMdFile).map (·.name)).Nodup)
    (hns : ∀ f ∈ d.files, f.mtime.nsec = 0)
    (hB2 : ∀ r ∈ B2, ¬ r.dirName = d.name) :
    processFiles db (b ++ B2) d = .ok (db, B2) := by
  obtain ⟨r, b', rfl⟩ : ∃ r b', b = r :: b' := by
    cases b with
    | nil => exact absurd rfl hne
    | cons r b' => exact ⟨r, b', rfl⟩
  have hb' : List.Forall₂
      (fun f w => w.name = f.name ∧ w.dirName = d.name ∧ w.mtime = f.mtime.sec)
      (d.files.filter isMdFile) (r :: b') := hb
  have hrd : r.dirName = d.name := (forallTwoRows d.name hb').2 r (by simp)
  have hhd : zmHasDir ((r :: b') ++ B2) d.name = true := by
    unfold zmHasDir
    rw [List.cons_append, List.any_cons]
    simp [hrd]
  unfold processFiles
  rw [if_pos hhd]
  rw [processFilesLoop_noop d.name d.files db (r :: b') B2 hb' hnd hns hB2]
  have hrows : zmDirRows B2 d.name = [] := by
    unfold zmDirRows
    rw [List.filter_eq_nil_iff]
    intro a ha
    simp [hB2 a ha]
  show Except.ok (deleteFilesRows db (zmDirRows B2 d.name), B2) = .ok (db, B2)
  rw [hrows]
  rfl

theorem processZettelsLoop_second :
    ∀ (fs : List FsDir) (db : DB) (B : List ZRow),
      Blocks fs B →
      (((fs.filter fun x => x.isDir).map (·.name)).Nodup) →
      (∀ d ∈ fs, d.isDir = true → ((d.files.filter isMdFile).map (·.name)).Nodup) →
      (∀ d ∈ fs, ∀ f ∈ d.files, f.mtime.nsec = 0) →
      (∀ d ∈ fs, d.isDir = true → db.dirs.any (fun r => r.name = d.name) = true) →
      ∃ log, processZettelsLoop db B fs = .ok (db, [], log) := by
  intro fs
  induction fs with
  | nil =>
    intro db B hB _ _ _ _
    cases hB
    exact ⟨[], rfl⟩
  | cons d rest ih =>
    intro db B hB hnd hkeys hns hdirs
    cases hB with
    | skip hd htail =>
      have hfilter : (d :: rest).filter (fun x => x.isDir)
          = rest.filter (fun x => x.isDir) := by
        rw [List.filter_cons, if_neg (by simp [hd])]
      rw [hfilter] at hnd
      obtain ⟨log', hrec⟩ := ih db _ htail hnd
        (fun x hx hxd => hkeys x (List.mem_cons_of_mem _ hx) hxd)
        (fun x hx => hns x (List.mem_cons_of_mem _ hx))
        (fun x hx hxd => hdirs x (List.mem_cons_of_mem _ hx) hxd)
      refine ⟨log', ?_⟩
      rw [processZettelsLoop]
      rw [if_pos (by simp [hd])]
      exact hrec
    | @dir _ _ b B' hd hb htail =>
      have hfilter : (d :: rest).filter (fun x => x.isDir)
          = d :: rest.filter (fun x => x.isDir) := by
        rw [List.filter_cons, if_pos (by simp [hd])]
      rw [hfilter, List.map_cons] at hnd
      have hnd0 := List.nodup_cons.1 hnd
      have hBdir : ∀ r ∈ B', ¬ r.dirName = d.name := by
        intro r hr hc
        obtain ⟨d', hd'mem, hd'dir, hname⟩ := blocks_dirnames htail r hr
        apply hnd0.1
        have h2 : d.name = d'.name := by rw [← hc]; exact hname
        rw [h2]
        exact List.mem_map_of_mem _ (List.mem_filter.2 ⟨hd'mem, by simp [hd'dir]⟩)
      obtain ⟨log', hrec⟩ := ih db B' htail hnd0.2
        (fun x hx hxd => hkeys x (List.mem_cons_of_mem _ hx) hxd)
        (fun x hx => hns x (List.mem_cons_of_mem _ hx))
        (fun x hx hxd => hdirs x (List.mem_cons_of_mem _ hx) hxd)
      cases b with
      | nil =>
        have hnodir : zmHasDir B' d.name = false := by
          unfold zmHasDir
          rw [List.any_eq_false]
          intro r hr
          simp only [decide_eq_true_eq]
          exact hBdir r hr
        have haz1 : (addZettel db d).1 = db := by
          unfold addZettel insertDir
          rw [if_pos (hdirs d (by simp) hd)]
        refine ⟨(addZettel db d).2.toList ++ log', ?_⟩
        rw [processZettelsLoop]
        rw [if_neg (by simp [hd])]
        rw [if_neg (by simp [hnodir])]
        rw [haz1, List.nil_append, hrec]
      | cons r b'' =>
        have hpf := processFiles_noop db d (r :: b'') B' hb (by simp)
          (hkeys d (by simp) hd) (hns d (by simp)) hBdir
        have herd : zmEraseDir B' d.name = B' := by
          unfold zmEraseDir
          apply List.filter_eq_self.2
          intro a ha
          simp [hBdir a ha]
        have hrd : r.dirName = d.name :=
          (forallTwoRows d.name
            (show List.Forall₂ _ (d.files.filter isMdFile) (r :: b'') from hb)).2 r (by simp)
        have hhd : zmHasDir ((r :: b'') ++ B') d.name = true := by
          unfold zmHasDir
          rw [List.cons_append, List.any_cons]
          simp [hrd]
        refine ⟨log', ?_⟩
        rw [processZettelsLoop]
        rw [if_neg (by simp [hd])]
        rw [if_pos hhd]
        rw [hpf]
        show processZettelsLoop db (zmEraseDir B' d.name) rest = .ok (db, [], log')
        rw [herd]
        exact hrec

/-- Claim C1, amended.  For the documented regime — whole-second
modification times, duplicate-free directory and note names, and
duplicate-free per-note tag sets — a sync of a fresh catalog followed by
a second sync of the unchanged tree leaves every table untouched: the
second run returns exactly the committed catalog of the first.  (With
sub-second modification times the claim fails: `c1_counterexample`.) -/
theorem c1_amended (fs : List FsDir) (db1 : DB) (log1 : List String)
    (hnd : (((fs.filter fun x => x.isDir).map (·.name)).Nodup))
    (hkeys : ∀ d ∈ fs, d.isDir = true → ((d.files.filter isMdFile).map (·.name)).Nodup)
    (hns : ∀ d ∈ fs, ∀ f ∈ d.files, f.mtime.nsec = 0)
    (htags : ∀ d ∈ fs, ∀ f ∈ d.files, (mkZettel d.name f).tags.Nodup)
    (h : updateDB fs emptyDB = .ok (db1, log1)) :
    ∃ log2, updateDB fs db1 = .ok (db1, log2) := by
  obtain ⟨db', log', B, hloop, hz, hB, hdirs⟩ :=
    processZettelsLoop_fresh_rows fs emptyDB (by intro d _ _; rfl) hnd htags
      ⟨by intro a ha; exact absurd ha (List.not_mem_nil a),
       by intro r hr; exact absurd hr (List.not_mem_nil r),
       List.nodup_nil⟩
  unfold updateDB processZettels at h
  rw [show zmOf emptyDB.zettels = [] from rfl] at h
  rw [hloop] at h
  have hdb1 : db1 = db' := by
    injection h with h'
    injection h' with h1 _
    rw [← h1]
    rfl
  subst hdb1
  have hzB : db1.zettels = B := by rw [hz]; rfl
  have hpw := blocks_pairwise hB hnd hkeys
  have hdirs2 : ∀ d ∈ fs, d.isDir = true →
      db1.dirs.any (fun r => r.name = d.name) = true := by
    intro d hdm hdir
    have hmem : d.name ∈ db1.dirs.map (·.name) := by
      rw [hdirs]
      rw [show emptyDB.dirs.map (·.name) = [] from rfl, List.nil_append]
      exact List.mem_map_of_mem _ (List.mem_filter.2 ⟨hdm, by simp [hdir]⟩)
    obtain ⟨r, hrmem, hrname⟩ := List.mem_map.1 hmem
    exact List.any_eq_true.2 ⟨r, hrmem, by simp [hrname]⟩
  obtain ⟨log2, hrun2⟩ := processZettelsLoop_second fs db1 B hB hnd hkeys hns hdirs2
  refine ⟨log2, ?_⟩
  unfold updateDB processZettels
  rw [show zmOf db1.zettels = B from by rw [hzB]; exact zmOf_id B hpw]
  rw [hrun2]
  rfl

/-- A notes root exercising the amended idempotence theorem: one
directory holding a tagged, linked note with a whole-second mtime, and
one empty directory. -/
def c1WFs : List FsDir :=
  [{ name := "20231028013031",
     files := [{ name := "README.md", mtime := ⟨100, 0⟩,
                 content := "# T\n\t\t#a #b\nbody" }] },
   { name := "20240000000000", files := [] }]

/-- Witness for the amended C1 theorem at a concrete root. -/
theorem c1_amended_witness :
    ∃ log2, updateDB c1WFs (runSync c1WFs emptyDB)
      = .ok (runSync c1WFs emptyDB, log2) :=
  c1_amended c1WFs (runSync c1WFs emptyDB) []
    (by decide) (by decide) (by decide) (by decide) (by rfl)

/-! Claim C6: the FTS triggers of `sql.go`.  The model replays each
trigger of `tablesSQL` after the statement it is attached to.  The
`zettel_tags` table is index-organized (composite primary key), so the
`GROUP_CONCAT` join reads associations in `(zettel_id, tag_id)` order;
the model keeps the association list in that order. -/

/-- A row of the `zettel` table as the triggers see it. -/
structure ZNote where
  id : Nat
  title : String
  body : String
deriving DecidableEq

/-- A row of the `zettel_fts` shadow table: `rowid` plus the three
indexed columns.  `tags` is `NULL` (`none`) when the `GROUP_CONCAT`
subquery aggregates no rows. -/
structure FtsRow where
  rowid : Nat
  title : String
  body : String
  tags : Option String
deriving DecidableEq

/-- The catalog fragment the six triggers touch. -/
structure Db6 where
  notes : List ZNote := []
  tags : List TagRow := []
  zettelTags : List ZTRow := []
  fts : List FtsRow := []
deriving DecidableEq

def db6Empty : Db6 := {}

/-- `GROUP_CONCAT(name, ' ')`: `NULL` for the empty aggregate. -/
def namesJoin : List String → Option String
  | [] => none
  | n :: rest => some (rest.foldl (fun acc m => acc ++ " " ++ m) n)

/-- The triggers' subquery: join `tag` with `zettel_tags` on the tag
id, restricted to one zettel, concatenating the names in the order the
association index yields them. -/
def groupConcatTags (tags : List TagRow) (zts : List ZTRow) (zid : Nat) : Option String :=
  namesJoin ((zts.filter (fun a => a.zettelId = zid)).filterMap
    (fun a => (tags.find? (fun t => t.id = a.tagId)).map (·.name)))

/-- Index order of `zettel_tags`: by zettel id, then tag id. -/
def ztLe (a b : ZTRow) : Bool :=
  a.zettelId < b.zettelId || (a.zettelId = b.zettelId && a.tagId ≤ b.tagId)

/-- Insertion into the index-organized `zettel_tags` table. -/
def ztInsert : List ZTRow → ZTRow → List ZTRow
  | [], a => [a]
  | x :: rest, a => if ztLe a x then a :: x :: rest else x :: ztInsert rest a

/-- `INSERT INTO zettel` followed by the `ai_zettel` trigger: mirror the
new row into `zettel_fts`, computing `tags` from the current
associations. -/
def db6InsNote (db : Db6) (n : ZNote) : Db6 :=
  { db with
    notes := db.notes ++ [n],
    fts := db.fts ++ [⟨n.id, n.title, n.body, groupConcatTags db.tags db.zettelTags n.id⟩] }

/-- `UPDATE zettel SET title=$1, body=$2 WHERE id=$3` followed by the
`au_zettel` trigger: refresh the shadow row at the same rowid. -/
def db6UpdNote (db : Db6) (zid : Nat) (t2 b2 : String) : Db6 :=
  { db with
    notes := db.notes.map (fun z =>
      if z.id = zid then { z with title := t2, body := b2 } else z),
    fts := db.fts.map (fun r =>
      if r.rowid = zid then
        { r with
          title := t2
          body := b2
          tags := groupConcatTags db.tags db.zettelTags zid }
      else r) }

/-- `DELETE FROM zettel WHERE id=$1` with `PRAGMA foreign_keys = ON`:
the cascade drops the note's associations (their `ad_zettel_tags`
triggers refresh the note's shadow `tags`), then `ad_zettel` deletes
the shadow row itself. -/
def db6DelNote (db : Db6) (zid : Nat) : Db6 :=
  let zts := db.zettelTags.filter (fun x => !(x.zettelId = zid))
  { db with
    notes := db.notes.filter (fun z => !(z.id = zid)),
    zettelTags := zts,
    fts := (db.fts.map (fun r =>
        if r.rowid = zid then { r with tags := groupConcatTags db.tags zts zid } else r)).filter
      (fun r => !(r.rowid = zid)) }

/-- `INSERT INTO zettel_tags` followed by the `ai_zettel_tags` trigger:
refresh the affected note's shadow `tags`. -/
def db6InsAssoc (db : Db6) (a : ZTRow) : Db6 :=
  let zts := ztInsert db.zettelTags a
  { db with
    zettelTags := zts,
    fts := db.fts.map (fun r =>
      if r.rowid = a.zettelId then
        { r with tags := groupConcatTags db.tags zts a.zettelId }
      else r) }

/-- `DELETE FROM zettel_tags WHERE zettel_id=$1 AND tag_id=$2` followed
by the `ad_zettel_tags` trigger. -/
def db6DelAssoc (db : Db6) (a : ZTRow) : Db6 :=
  let zts := db.zettelTags.filter (fun x => !(x.zettelId = a.zettelId && x.tagId = a.tagId))
  { db with
    zettelTags := zts,
    fts := db.fts.map (fun r =>
      if r.rowid = a.zettelId then
        { r with tags := groupConcatTags db.tags zts a.zettelId }
      else r) }

/-- `INSERT INTO tag` (no trigger is attached to `tag`). -/
def db6InsTag (db : Db6) (t : TagRow) : Db6 :=
  { db with tags := db.tags ++ [t] }

/-- The shadow-table invariant the triggers actually maintain: the rows
of `zettel_fts` correspond one-to-one (in order) to the rows of
`zettel`, matching on rowid, title and body, with `tags` equal to the
trigger subquery's aggregate. -/
def Fts6Inv (db : Db6) : Prop :=
  List.Forall₂
    (fun z r => r.rowid = z.id ∧ r.title = z.title ∧ r.body = z.body ∧
      r.tags = groupConcatTags db.tags db.zettelTags z.id)
    db.notes db.fts

/-- Byte-wise string comparison, written out on the character lists so
concrete instances evaluate inside the kernel. -/
def charListLe : List Char → List Char → Bool
  | [], _ => true
  | _ :: _, [] => false
  | a :: as, b :: bs => if a = b then charListLe as bs else a.toNat < b.toNat

def strLeB (s t : String) : Bool :=
  charListLe s.data t.data

/-- The spec's words for the `tags` column: the space-joined
sorted-unique names of the note's tags. -/
def strInsertLe (s : String) : List String → List String
  | [] => [s]
  | x :: rest => if strLeB s x then s :: x :: rest else x :: strInsertLe s rest

/-- Modelled from the spec: sorted-unique space-joined tag names. -/
def sortedTagsJoin (tags : List TagRow) (zts : List ZTRow) (zid : Nat) : Option String :=
  namesJoin ((((zts.filter (fun a => a.zettelId = zid)).filterMap
    (fun a => (tags.find? (fun t => t.id = a.tagId)).map (·.name))).dedup).foldl
      (fun acc s => strInsertLe s acc) [])

/-- A note whose two tags arrive in reverse alphabetical order: tag
`b` gets id 1, tag `a` gets id 2. -/
def c6Db : Db6 :=
  db6InsAssoc
    (db6InsAssoc
      (db6InsTag (db6InsTag (db6InsNote db6Empty ⟨1, "T", "B"⟩) ⟨1, "b"⟩) ⟨2, "a"⟩)
      ⟨1, 1⟩)
    ⟨1, 2⟩

/-- Claim C6, counterexample.  The trigger subquery concatenates tag
names in association-index order (ascending tag id), not sorted by
name: a note tagged `b` then `a` carries the FTS `tags` value `"b a"`,
while the claimed space-joined sorted-unique form is `"a b"`. -/
theorem c6_counterexample :
    c6Db.fts.map (·.tags) = [some "b a"] ∧
    sortedTagsJoin c6Db.tags c6Db.zettelTags 1 = some "a b" ∧
    ¬ c6Db.fts.map (·.tags) = [sortedTagsJoin c6Db.tags c6Db.zettelTags 1] := by
  refine ⟨by decide, by decide, by decide⟩

theorem forall2_app {α β : Type} {P : α → β → Prop} :
    ∀ {l1 l3 : List α} {l2 l4 : List β}, List.Forall₂ P l1 l2 → List.Forall₂ P l3 l4 →
      List.Forall₂ P (l1 ++ l3) (l2 ++ l4) := by
  intro l1 l3 l2 l4 h h2
  induction h with
  | nil => exact h2
  | cons hab htail ih => exact List.Forall₂.cons hab ih

theorem forall2_map_right {α β γ : Type} {P : α → γ → Prop} {f : β → γ} :
    ∀ {l1 : List α} {l2 : List β}, List.Forall₂ (fun a b => P a (f b)) l1 l2 →
      List.Forall₂ P l1 (l2.map f) := by
  intro l1 l2 h
  induction h with
  | nil => exact List.Forall₂.nil
  | cons hab htail ih => exact List.Forall₂.cons hab ih

theorem forall2_map_both {α β α2 β2 : Type} {P : α2 → β2 → Prop} {f : α → α2} {g : β → β2} :
    ∀ {l1 : List α} {l2 : List β}, List.Forall₂ (fun a b => P (f a) (g b)) l1 l2 →
      List.Forall₂ P (l1.map f) (l2.map g) := by
  intro l1 l2 h
  induction h with
  | nil => exact List.Forall₂.nil
  | cons hab htail ih => exact List.Forall₂.cons hab ih

theorem forall2_filter_aligned {α β : Type} {P Q : α → β → Prop}
    {p : α → Bool} {q : β → Bool} :
    ∀ {l1 : List α} {l2 : List β}, List.Forall₂ P l1 l2 →
      (∀ a b, P a b → p a = q b) →
      (∀ a b, P a b → p a = true → Q a b) →
      List.Forall₂ Q (l1.filter p) (l2.filter q) := by
  intro l1 l2 h
  induction h with
  | nil => intro _ _; exact List.Forall₂.nil
  | @cons a b l1' l2' hab htail ih =>
    intro halign himp
    rw [List.filter_cons, List.filter_cons]
    cases hpa : p a with
    | true =>
      rw [if_pos rfl, if_pos ((halign a b hab).symm.trans hpa)]
      exact List.Forall₂.cons (himp a b hab hpa) (ih halign himp)
    | false =>
      rw [if_neg (by simp), if_neg (by simp [(halign a b hab).symm.trans hpa])]
      exact ih halign himp

theorem filter_zid_of_filter_ne (zid id2 : Nat) (hne : ¬ zid = id2) :
    ∀ zts : List ZTRow,
      (zts.filter (fun x => !(x.zettelId = id2))).filter (fun a => a.zettelId = zid)
        = zts.filter (fun a => a.zettelId = zid) := by
  intro zts
  rw [List.filter_filter]
  apply List.filter_congr
  intro x _
  by_cases hxz : x.zettelId = zid
  · have hx : ¬ x.zettelId = id2 := by
      rw [hxz]
      intro hc
      exact hne hc
    simp [hxz, hx]
    exact hne
  · simp [hxz]

theorem gct_filter_ne (tags : List TagRow) (zts : List ZTRow) (zid id2 : Nat)
    (hne : ¬ zid = id2) :
    groupConcatTags tags (zts.filter (fun x => !(x.zettelId = id2))) zid
      = groupConcatTags tags zts zid := by
  unfold groupConcatTags
  rw [filter_zid_of_filter_ne zid id2 hne zts]

theorem ztInsert_filter_ne (a : ZTRow) (zid : Nat) (hne : ¬ a.zettelId = zid) :
    ∀ zts : List ZTRow,
      (ztInsert zts a).filter (fun x => x.zettelId = zid)
        = zts.filter (fun x => x.zettelId = zid) := by
  intro zts
  induction zts with
  | nil =>
    show List.filter (fun x => x.zettelId = zid) [a] = _
    simp [hne]
  | cons x rest ih =>
    show (if ztLe a x then a :: x :: rest else x :: ztInsert rest a).filter
        (fun x => x.zettelId = zid) = _
    by_cases hle : ztLe a x = true
    · rw [if_pos hle]
      rw [List.filter_cons]
      rw [if_neg (by simp [hne])]
    · rw [if_neg hle]
      rw [List.filter_cons, List.filter_cons]
      by_cases hxz : x.zettelId = zid
      · simp [hxz, ih]
      · simp [hxz, ih]

theorem gct_ztInsert_ne (tags : List TagRow) (zts : List ZTRow) (a : ZTRow) (zid : Nat)
    (hne : ¬ a.zettelId = zid) :
    groupConcatTags tags (ztInsert zts a) zid = groupConcatTags tags zts zid := by
  unfold groupConcatTags
  rw [ztInsert_filter_ne a zid hne zts]

theorem filter_pair_zid_ne (zid : Nat) (a : ZTRow) (hne : ¬ zid = a.zettelId) :
    ∀ zts : List ZTRow,
      (zts.filter (fun x => !(x.zettelId = a.zettelId && x.tagId = a.tagId))).filter
        (fun x => x.zettelId = zid)
        = zts.filter (fun x => x.zettelId = zid) := by
  intro zts
  rw [List.filter_filter]
  apply List.filter_congr
  intro x _
  by_cases hxz : x.zettelId = zid
  · have hx : ¬ x.zettelId = a.zettelId := by
      rw [hxz]
      intro hc
      exact hne hc
    simp [hxz, hx]
    exact Or.inl hne
  · simp [hxz]

theorem gct_filter_pair_ne (tags : List TagRow) (zts : List ZTRow) (a : ZTRow) (zid : Nat)
    (hne : ¬ zid = a.zettelId) :
    groupConcatTags tags
      (zts.filter (fun x => !(x.zettelId = a.zettelId && x.tagId = a.tagId))) zid
      = groupConcatTags tags zts zid := by
  unfold groupConcatTags
  rw [filter_pair_zid_ne zid a hne zts]

/-- Claim C6, amended.  The six triggers keep `zettel_fts` mirroring
`zettel` row-for-row — equal rowids, titles and bodies — with the
`tags` column equal to the `GROUP_CONCAT` of the note's tag names *in
association-index (tag id) order*, `NULL` when the note has no tags.
The claimed name-sorted form does not hold (`c6_counterexample`). -/
theorem c6_amended (db : Db6) (h : Fts6Inv db) :
    (∀ n, Fts6Inv (db6InsNote db n)) ∧
    (∀ zid t2 b2, Fts6Inv (db6UpdNote db zid t2 b2)) ∧
    (∀ zid, Fts6Inv (db6DelNote db zid)) ∧
    (∀ a, Fts6Inv (db6InsAssoc db a)) ∧
    (∀ a, Fts6Inv (db6DelAssoc db a)) := by
  refine ⟨?_, ?_, ?_, ?_, ?_⟩
  · intro n
    show List.Forall₂ _ (db.notes ++ [n]) (db.fts ++
      [⟨n.id, n.title, n.body, groupConcatTags db.tags db.zettelTags n.id⟩])
    exact forall2_app h (List.Forall₂.cons ⟨rfl, rfl, rfl, rfl⟩ List.Forall₂.nil)
  · intro zid t2 b2
    show List.Forall₂ _
      (db.notes.map (fun z => if z.id = zid then { z with title := t2, body := b2 } else z))
      (db.fts.map (fun r =>
        if r.rowid = zid then
          { r with
            title := t2
            body := b2
            tags := groupConcatTags db.tags db.zettelTags zid }
        else r))
    refine forall2_map_both (h.imp ?_)
    intro z r hp
    by_cases hz : z.id = zid
    · rw [if_pos hz, if_pos (hp.1.trans hz)]
      refine ⟨hp.1, rfl, rfl, ?_⟩
      show groupConcatTags db.tags db.zettelTags zid = groupConcatTags db.tags db.zettelTags z.id
      rw [hz]
    · rw [if_neg hz, if_neg (fun hc => hz (hp.1.symm.trans hc))]
      exact hp
  · intro zid
    show List.Forall₂
      (fun z r => r.rowid = z.id ∧ r.title = z.title ∧ r.body = z.body ∧
        r.tags = groupConcatTags db.tags
          (db.zettelTags.filter (fun x => !(x.zettelId = zid))) z.id)
      (db.notes.filter (fun z => !(z.id = zid)))
      ((db.fts.map (fun r =>
          if r.rowid = zid then
            { r with tags := groupConcatTags db.tags (db.zettelTags.filter (fun x => !(x.zettelId = zid))) zid }
          else r)).filter (fun r => !(r.rowid = zid)))
    have hmap : List.Forall₂
        (fun z r => r.rowid = z.id ∧ r.title = z.title ∧ r.body = z.body ∧
          (¬ z.id = zid → r.tags = groupConcatTags db.tags
            (db.zettelTags.filter (fun x => !(x.zettelId = zid))) z.id))
        db.notes
        (db.fts.map (fun r =>
          if r.rowid = zid then
            { r with tags := groupConcatTags db.tags (db.zettelTags.filter (fun x => !(x.zettelId = zid))) zid }
          else r)) := by
      refine forall2_map_right (h.imp ?_)
      intro z r hp
      by_cases hz : z.id = zid
      · rw [if_pos (hp.1.trans hz)]
        exact ⟨hp.1, hp.2.1, hp.2.2.1, fun hne2 => absurd hz hne2⟩
      · rw [if_neg (fun hc => hz (hp.1.symm.trans hc))]
        refine ⟨hp.1, hp.2.1, hp.2.2.1, fun hne2 => ?_⟩
        rw [hp.2.2.2]
        exact (gct_filter_ne db.tags db.zettelTags z.id zid hz).symm
    refine forall2_filter_aligned hmap ?_ ?_
    · intro z r hR
      show (!decide (z.id = zid)) = (!decide (r.rowid = zid))
      rw [hR.1]
    · intro z r hR hkeep
      have hz : ¬ z.id = zid := by
        intro hc
        rw [hc] at hkeep
        simp at hkeep
      exact ⟨hR.1, hR.2.1, hR.2.2.1, hR.2.2.2 hz⟩
  · intro a
    show List.Forall₂
      (fun z r => r.rowid = z.id ∧ r.title = z.title ∧ r.body = z.body ∧
        r.tags = groupConcatTags db.tags (ztInsert db.zettelTags a) z.id)
      db.notes
      (db.fts.map (fun r =>
        if r.rowid = a.zettelId then
          { r with tags := groupConcatTags db.tags (ztInsert db.zettelTags a) a.zettelId }
        else r))
    refine forall2_map_right (h.imp ?_)
    intro z r hp
    by_cases hz : z.id = a.zettelId
    · rw [if_pos (hp.1.trans hz)]
      refine ⟨hp.1, hp.2.1, hp.2.2.1, ?_⟩
      show groupConcatTags db.tags (ztInsert db.zettelTags a) a.zettelId
        = groupConcatTags db.tags (ztInsert db.zettelTags a) z.id
      rw [hz]
    · rw [if_neg (fun hc => hz (hp.1.symm.trans hc))]
      refine ⟨hp.1, hp.2.1, hp.2.2.1, ?_⟩
      rw [hp.2.2.2]
      exact (gct_ztInsert_ne db.tags db.zettelTags a z.id (fun hc => hz hc.symm)).symm
  · intro a
    show List.Forall₂
      (fun z r => r.rowid = z.id ∧ r.title = z.title ∧ r.body = z.body ∧
        r.tags = groupConcatTags db.tags
          (db.zettelTags.filter (fun x => !(x.zettelId = a.zettelId && x.tagId = a.tagId)))
          z.id)
      db.notes
      (db.fts.map (fun r =>
        if r.rowid = a.zettelId then
          { r with tags := groupConcatTags db.tags (db.zettelTags.filter (fun x => !(x.zettelId = a.zettelId && x.tagId = a.tagId))) a.zettelId }
        else r))
    refine forall2_map_right (h.imp ?_)
    intro z r hp
    by_cases hz : z.id = a.zettelId
    · rw [if_pos (hp.1.trans hz)]
      refine ⟨hp.1, hp.2.1, hp.2.2.1, ?_⟩
      show groupConcatTags db.tags
          (db.zettelTags.filter (fun x => !(x.zettelId = a.zettelId && x.tagId = a.tagId)))
          a.zettelId
        = groupConcatTags db.tags
          (db.zettelTags.filter (fun x => !(x.zettelId = a.zettelId && x.tagId = a.tagId)))
          z.id
      rw [hz]
    · rw [if_neg (fun hc => hz (hp.1.symm.trans hc))]
      refine ⟨hp.1, hp.2.1, hp.2.2.1, ?_⟩
      rw [hp.2.2.2]
      exact (gct_filter_pair_ne db.tags db.zettelTags a z.id hz).symm

/-- Witness for the amended C6 theorem at the concrete two-tag
catalog. -/
theorem c6_amended_witness :
    (∀ n, Fts6Inv (db6InsNote c6Db n)) ∧
    (∀ zid t2 b2, Fts6Inv (db6UpdNote c6Db zid t2 b2)) ∧
    (∀ zid, Fts6Inv (db6DelNote c6Db zid)) ∧
    (∀ a, Fts6Inv (db6InsAssoc c6Db a)) ∧
    (∀ a, Fts6Inv (db6DelAssoc c6Db a)) :=
  c6_amended c6Db
    (List.Forall₂.cons ⟨rfl, rfl, rfl, rfl⟩ List.Forall₂.nil)

/-! Claim C4: link resolution during synchronization.  The deciding
code — the transaction-aware `splitZettel(tx, z, e)` that looks the
captured directory name up in the catalog — is not part of the sources
here; only its example test and the spec describe it.  The resolving
parser below is therefore modelled from the spec (§4.1) and checked
against `ExampleSplitZettel`. -/

/-- Group 2 of the link regex, scanned lazily: stop at the first
`"/) "` (the optional slash is not captured) or `") "` that leaves a
nonempty tail, consuming characters into the capture otherwise. -/
def lazyDir : List Char → List Char
  | '/' :: ')' :: ' ' :: _ :: _ => []
  | ')' :: ' ' :: _ :: _ => []
  | c :: rest => c :: lazyDir rest
  | [] => []

/-- The remainder after the `"](../"` chosen by the greedy group 1:
the last occurrence that still admits a close (`closeSeek`). -/
def dirRest : List Char → Option (List Char)
  | [] => none
  | c :: cs =>
    match dirRest cs with
    | some r => some r
    | none =>
      if startsWithS [']', '(', '.', '.', '/'] (c :: cs) && closeSeek ((c :: cs).drop 5) then
        some ((c :: cs).drop 5)
      else none

/-- Modelled from the spec: the directory name the link pattern
captures on a matching line — group 2 of
`\[(.+)\]\(\.\./(.*?)/?\) (.+)` for the leftmost match with greedy
group 1. -/
def linkDirOf (l : List Char) : List Char :=
  match linkCapture l with
  | '[' :: _ :: cs2 =>
    match dirRest cs2 with
    | some r => lazyDir r
    | none => []
  | _ => []

/-- Modelled from the spec: the non-title branches of the resolving
parser.  A matching link line contributes a link only when the captured
directory name resolves to a note of the catalog; either way the line
is excluded from the body. -/
def splitRestTx (zs : List ZRow) (a : SplitAcc) (l : List Char) : SplitAcc :=
  if isLinkLine l then
    if (zs.find? (fun r => r.dirName = String.mk (linkDirOf l))).isSome then
      { a with links := a.links ++ [linkCapture l] }
    else a
  else if isTagLine l then { a with tags := a.tags ++ tagTokens l }
  else if a.isBody then { a with body := a.body ++ [l] }
  else a

/-- Modelled from the spec: one scan step of the resolving parser. -/
def splitStepTx (zs : List ZRow) (a : SplitAcc) (l : List Char) : SplitAcc :=
  if a.title = [] then
    match titleRest l with
    | some t => { a with title := t, isBody := true }
    | none => splitRestTx zs a l
  else splitRestTx zs a l

/-- Modelled from the spec: the resolving scan loop. -/
def splitRunTx (zs : List ZRow) (ls : List (List Char)) : SplitAcc :=
  ls.foldl (splitStepTx zs) {}

/-- Modelled from the spec: `splitZettel(tx, z, e)` — parse against the
catalog, dropping unresolvable links. -/
def splitZettelTx (zs : List ZRow) (content : String) :
    String × String × List String × List String :=
  let a := splitRunTx zs (goLines content.data)
  (String.mk a.title, String.mk (intercalateNl a.body),
    a.links.map String.mk, a.tags.map String.mk)

/-- Replay of `ExampleSplitZettel`: two resolvable links survive, the
unresolvable one is dropped, the bad tag token is skipped, no link line
reaches the body.  (The example framework trims trailing blank output
lines, so the test's printed body elides the final blank body line kept
here.) -/
theorem splitZettelTx_example :
    splitZettelTx [⟨1, "README.md", "T", "B", 0, "20231028013031"⟩]
      "# Example Title\n\nThis is some body text.\nIt can span multiple lines.\n\nSee:\n\n* [20231028013031](../20231028013031) Some linked Zettel\n* [20231028013031](../20231028013031) Another linked Zettel\n* [20240000003031](../20240000003031) Non-existent Zettel\n\n\t\t#tag1 badTag #tag2"
      = ("Example Title",
         "\nThis is some body text.\nIt can span multiple lines.\n\nSee:\n\n",
         ["[20231028013031](../20231028013031) Some linked Zettel",
          "[20231028013031](../20231028013031) Another linked Zettel"],
         ["tag1", "tag2"]) := by
  decide

theorem linkCapture_head :
    ∀ l, isLinkLine l = true →
      ∃ cs, linkCapture l = '[' :: cs ∧ linkAfter cs = true := by
  intro l h
  induction l with
  | nil => simp [isLinkLine] at h
  | cons c cs ih =>
    unfold isLinkLine at h
    unfold linkCapture
    by_cases hc : (c = '[' && linkAfter cs) = true
    · rw [if_pos hc]
      rw [Bool.and_eq_true] at hc
      refine ⟨cs, ?_, hc.2⟩
      rw [show c = '[' from by simpa using hc.1]
    · rw [if_neg hc]
      apply ih
      rw [Bool.or_eq_true] at h
      rcases h with h | h
      · exact absurd h hc
      · exact h

theorem linkCapture_idem (l : List Char) (h : isLinkLine l = true) :
    linkCapture (linkCapture l) = linkCapture l := by
  obtain ⟨cs, heq, haf⟩ := linkCapture_head l h
  rw [heq]
  unfold linkCapture
  rw [if_pos (by simp [haf])]

theorem linkDirOf_capture (l : List Char) (h : isLinkLine l = true) :
    linkDirOf (linkCapture l) = linkDirOf l := by
  unfold linkDirOf
  rw [linkCapture_idem l h]

/-- The simulation relation between the resolving and the standalone
scan states: identical title, body and tags; the resolved links are the
standalone captures whose directory name resolves. -/
def TxRel (zs : List ZRow) (a' a : SplitAcc) : Prop :=
  a'.title = a.title ∧ a'.isBody = a.isBody ∧ a'.body = a.body ∧ a'.tags = a.tags ∧
  a'.links = a.links.filter
    (fun c => (zs.find? (fun r => r.dirName = String.mk (linkDirOf c))).isSome)

theorem splitRestTx_rel (zs : List ZRow) (a' a : SplitAcc) (l : List Char)
    (h : TxRel zs a' a) : TxRel zs (splitRestTx zs a' l) (splitRest a l) := by
  obtain ⟨h1, h2, h3, h4, h5⟩ := h
  unfold splitRestTx splitRest
  by_cases hl : isLinkLine l = true
  · rw [if_pos hl, if_pos hl]
    by_cases hres : (zs.find? (fun r => r.dirName = String.mk (linkDirOf l))).isSome = true
    · rw [if_pos hres]
      refine ⟨h1, h2, h3, h4, ?_⟩
      rw [h5, List.filter_append]
      have hcap : (zs.find? (fun r =>
          r.dirName = String.mk (linkDirOf (linkCapture l)))).isSome = true := by
        rw [linkDirOf_capture l hl]
        exact hres
      simp [hcap]
    · rw [if_neg hres]
      refine ⟨h1, h2, h3, h4, ?_⟩
      rw [h5, List.filter_append]
      have hcap : (zs.find? (fun r =>
          r.dirName = String.mk (linkDirOf (linkCapture l)))).isSome = false := by
        rw [linkDirOf_capture l hl]
        simpa using hres
      simp [hcap]
  · rw [if_neg hl, if_neg hl]
    by_cases htag : isTagLine l = true
    · rw [if_pos htag, if_pos htag]
      exact ⟨h1, h2, h3, by rw [h4], h5⟩
    · rw [if_neg htag, if_neg htag]
      rw [h2]
      by_cases hb : a.isBody = true
      · rw [if_pos hb, if_pos hb]
        exact ⟨h1, rfl, by rw [h3], h4, h5⟩
      · rw [if_neg hb, if_neg hb]
        exact ⟨h1, h2, h3, h4, h5⟩

theorem splitStepTx_rel (zs : List ZRow) (a' a : SplitAcc) (l : List Char)
    (h : TxRel zs a' a) : TxRel zs (splitStepTx zs a' l) (splitStep a l) := by
  have h1 := h.1
  unfold splitStepTx splitStep
  rw [h1]
  by_cases ht : a.title = []
  · rw [if_pos ht, if_pos ht]
    cases htr : titleRest l with
    | some t => exact ⟨rfl, rfl, h.2.2.1, h.2.2.2.1, h.2.2.2.2⟩
    | none => exact splitRestTx_rel zs a' a l h
  · rw [if_neg ht, if_neg ht]
    exact splitRestTx_rel zs a' a l h

theorem splitRunTx_rel (zs : List ZRow) :
    ∀ (ls : List (List Char)) (a' a : SplitAcc), TxRel zs a' a →
      TxRel zs (ls.foldl (splitStepTx zs) a') (ls.foldl splitStep a) := by
  intro ls
  induction ls with
  | nil => intro a' a h; exact h
  | cons l ls ih =>
    intro a' a h
    exact ih (splitStepTx zs a' l) (splitStep a l) (splitStepTx_rel zs a' a l h)

theorem splitRest_body_no_link (a : SplitAcc) (l : List Char)
    (hinv : ∀ x ∈ a.body, isLinkLine x = false) :
    ∀ x ∈ (splitRest a l).body, isLinkLine x = false := by
  intro x hx
  unfold splitRest at hx
  by_cases hl : isLinkLine l = true
  · rw [if_pos hl] at hx
    exact hinv x hx
  · rw [if_neg hl] at hx
    by_cases htag : isTagLine l = true
    · rw [if_pos htag] at hx
      exact hinv x hx
    · rw [if_neg htag] at hx
      by_cases hb : a.isBody = true
      · rw [if_pos hb] at hx
        rcases List.mem_append.1 hx with hx1 | hx1
        · exact hinv x hx1
        · rw [List.mem_singleton.1 hx1]
          simpa using hl
      · rw [if_neg hb] at hx
        exact hinv x hx

theorem splitStep_body_no_link (a : SplitAcc) (l : List Char)
    (hinv : ∀ x ∈ a.body, isLinkLine x = false) :
    ∀ x ∈ (splitStep a l).body, isLinkLine x = false := by
  intro x hx
  unfold splitStep at hx
  by_cases ht : a.title = []
  · rw [if_pos ht] at hx
    cases htr : titleRest l with
    | some t =>
      rw [htr] at hx
      exact hinv x hx
    | none =>
      rw [htr] at hx
      exact splitRest_body_no_link a l hinv x hx
  · rw [if_neg ht] at hx
    exact splitRest_body_no_link a l hinv x hx

theorem splitRun_body_no_link :
    ∀ (ls : List (List Char)) (a : SplitAcc),
      (∀ x ∈ a.body, isLinkLine x = false) →
      ∀ x ∈ (ls.foldl splitStep a).body, isLinkLine x = false := by
  intro ls
  induction ls with
  | nil => intro a h; exact h
  | cons l ls ih =>
    intro a h
    exact ih (splitStep a l) (splitStep_body_no_link a l h)

/-- Claim C4.  Modelled from the spec: the resolving parser used during
synchronization produces the same title, body and tags as the
standalone parser, and its link table entries are exactly the
standalone captures whose captured directory name resolves to a note
of the catalog — an unresolvable link line is dropped from the links
while remaining excluded from the body (no body line matches the link
pattern). -/
theorem c4_link_resolution (zs : List ZRow) (content : String) :
    (splitZettelTx zs content).1 = (splitZettel content).1 ∧
    (splitZettelTx zs content).2.1 = (splitZettel content).2.1 ∧
    (splitZettelTx zs content).2.2.2 = (splitZettel content).2.2.2 ∧
    (splitZettelTx zs content).2.2.1
      = ((splitZettel content).2.2.1).filter
          (fun c => (zs.find? (fun r => r.dirName = String.mk (linkDirOf c.data))).isSome) ∧
    (∀ l ∈ (splitRunTx zs (goLines content.data)).body, isLinkLine l = false) := by
  have hrel := splitRunTx_rel zs (goLines content.data) {} {} ⟨rfl, rfl, rfl, rfl, rfl⟩
  refine ⟨?_, ?_, ?_, ?_, ?_⟩
  · exact congrArg String.mk hrel.1
  · exact congrArg (fun b => String.mk (intercalateNl b)) hrel.2.2.1
  · exact congrArg (List.map String.mk) hrel.2.2.2.1
  · show ((splitRunTx zs (goLines content.data)).links).map String.mk
      = (((splitRun (goLines content.data)).links).map String.mk).filter
          (fun c => (zs.find? (fun r => r.dirName = String.mk (linkDirOf c.data))).isSome)
    rw [show (splitRunTx zs (goLines content.data)).links
      = ((splitRun (goLines content.data)).links).filter
          (fun c => (zs.find? (fun r => r.dirName = String.mk (linkDirOf c))).isSome)
      from hrel.2.2.2.2]
    rw [List.filter_map]
    rfl
  · intro l hl
    have hb : (splitRunTx zs (goLines content.data)).body
        = ((goLines content.data).foldl splitStep {}).body := hrel.2.2.1
    rw [hb] at hl
    exact splitRun_body_no_link (goLines content.data) {}
      (by intro x hx; exact absurd hx (List.not_mem_nil x)) l hl

/-! Claim C10: `Add` opens the note file in append mode (`file` in
add.go uses `os.O_CREATE|os.O_APPEND|os.O_WRONLY`), so an existing
`README.md` keeps its content and the composed text lands after it. -/

/-- A flat filesystem: path to file content.  `fsLookup` is `os.Stat`
resp. reading the file. -/
def fsLookup (fs : List (String × String)) (p : String) : Option String :=
  (fs.find? (fun e => e.1 = p)).map (·.2)

/-- `file` from add.go: `os.OpenFile(s, os.O_CREATE|os.O_APPEND|os.O_WRONLY, 0644)` —
an existing file is left untouched (`O_APPEND`, no `O_TRUNC`), a
missing one is created empty. -/
def fileOpen (fs : List (String × String)) (p : String) : List (String × String) :=
  if fs.any (fun e => e.1 = p) then fs else fs ++ [(p, "")]

/-- A write through the `O_APPEND` descriptor
(`bufio.NewWriter(f).WriteString` + `Flush`): the text lands at the end
of the file. -/
def fsAppend (fs : List (String × String)) (p : String) (t : String) :
    List (String × String) :=
  fs.map (fun e => if e.1 = p then (e.1, e.2 ++ t) else e)

/-- `fullText` as `Add` composes it: `"# " + title + "\n"`, then the
body and stdin if nonempty, then `"See:\n\n" + link` if nonempty, then
`"\n"`. -/
def addFullText (title body stdin link : String) : String :=
  let t1 := "# " ++ title ++ "\n"
  let t2 := if body = "" then t1 else t1 ++ body
  let t3 := if stdin = "" then t2 else t2 ++ stdin
  let t4 := if link = "" then t3 else t3 ++ "See:\n\n" ++ link
  t4 ++ "\n"

/-- `Add` from add.go: join the path, open with create/append, write
the composed text. -/
def goAdd (fs : List (String × String)) (dirPath title body stdin link : String) :
    List (String × String) :=
  let zfpath := dirPath ++ "/README.md"
  fsAppend (fileOpen fs zfpath) zfpath (addFullText title body stdin link)

theorem fsAppend_lookup :
    ∀ (fs : List (String × String)) (p t c : String),
      fsLookup fs p = some c → fsLookup (fsAppend fs p t) p = some (c ++ t) := by
  intro fs p t
  induction fs with
  | nil =>
    intro c h
    simp [fsLookup] at h
  | cons e rest ih =>
    intro c h
    unfold fsLookup at h
    unfold fsLookup fsAppend
    by_cases he : e.1 = p
    · rw [List.find?_cons_of_pos _ (by simp [he])] at h
      have hc : e.2 = c := by simpa using h
      rw [List.map_cons, List.find?_cons_of_pos _ (by simp [he])]
      rw [if_pos (by simpa using he)]
      simp [hc]
    · rw [List.find?_cons_of_neg _ (by simp [he])] at h
      rw [List.map_cons, if_neg (by simpa using he),
        List.find?_cons_of_neg _ (by simp [he])]
      exact ih c h

theorem fileOpen_of_lookup (fs : List (String × String)) (p c : String)
    (h : fsLookup fs p = some c) : fileOpen fs p = fs := by
  unfold fsLookup at h
  obtain ⟨e, he1, _⟩ := Option.map_eq_some'.1 h
  unfold fileOpen
  rw [if_pos (List.any_eq_true.2
    ⟨e, List.mem_of_find?_eq_some he1, List.find?_some he1⟩)]

/-- Claim C10.  If a `README.md` already exists at the target path, the
note-creation operation opens it with `O_CREATE|O_APPEND|O_WRONLY` and
appends the composed note text: afterwards the file holds exactly its
old content followed by the new text — no existing byte is truncated
or overwritten. -/
theorem c10_append (fs : List (String × String))
    (dirPath title body stdin link c : String)
    (h : fsLookup fs (dirPath ++ "/README.md") = some c) :
    fsLookup (goAdd fs dirPath title body stdin link) (dirPath ++ "/README.md")
      = some (c ++ addFullText title body stdin link) := by
  show fsLookup
      (fsAppend (fileOpen fs (dirPath ++ "/README.md")) (dirPath ++ "/README.md")
        (addFullText title body stdin link))
      (dirPath ++ "/README.md")
    = some (c ++ addFullText title body stdin link)
  rw [fileOpen_of_lookup fs (dirPath ++ "/README.md") c h]
  exact fsAppend_lookup fs (dirPath ++ "/README.md")
    (addFullText title body stdin link) c h

/-- Witness for C10 at a concrete filesystem: the old note body
survives as a prefix. -/
theorem c10_append_witness :
    fsLookup (goAdd [("d/README.md", "# Old\nbody\n")] "d" "T" "B" "S" "L")
        ("d" ++ "/README.md")
      = some ("# Old\nbody\n" ++ addFullText "T" "B" "S" "L") :=
  c10_append [("d/README.md", "# Old\nbody\n")] "d" "T" "B" "S" "L" "# Old\nbody\n"
    (by decide)

end Zet
